import Mathlib

/-!
Verification of the AI-comparison core (Orchestrator + Analysis Engine).

The definitions below are a shallow embedding of the TypeScript sources
`src/services/AnalysisService.ts`, `src/services/AICompareService.ts` and the
analysis-invoking wrapper in `src/services/ResponseFormatter.ts`.  JavaScript
strings are modelled as Lean `String` (lists of characters), JavaScript
numbers that hold integer counts as `Nat`, and similarity scores (which the
source computes with floating-point division on small integer cardinalities)
as exact rationals `ℚ`.  JavaScript regular expressions are embedded as
executable scanners over `List Char` that mirror the backtracking behaviour
of the concrete patterns used by the source.
-/

namespace Vectivii

/-- JavaScript word character class `\w`, i.e. `[A-Za-z0-9_]`. -/
def isWordChar (c : Char) : Bool := c.isAlpha || c.isDigit || c = '_'

/-- JavaScript whitespace class `\s` restricted to the code points that occur
in the analysed texts (space, tab, newline, carriage return, vertical tab,
form feed, no-break space). -/
def isSpc (c : Char) : Bool :=
  c = ' ' || c = '\t' || c = '\n' || c = '\r' ||
  c = Char.ofNat 11 || c = Char.ofNat 12 || c = Char.ofNat 160

/-- ASCII lower-casing of a string, the effect of `String.prototype.toLowerCase`
on the ASCII texts handled by the service. -/
def lowerStr (s : String) : String := String.mk (s.data.map Char.toLower)

/-- Accumulator-based splitting of a character list into the maximal runs of
word characters: the matches of `/\b\w+\b/g` (see `extractKeyTerms`,
AnalysisService.ts line 250). -/
def wordRunsAux : List Char → List Char → List String
  | acc, [] => if acc.isEmpty then [] else [String.mk acc.reverse]
  | acc, c :: cs =>
    if isWordChar c then wordRunsAux (c :: acc) cs
    else if acc.isEmpty then wordRunsAux [] cs
    else String.mk acc.reverse :: wordRunsAux [] cs

/-- All matches of `/\b\w+\b/g` in a string, in order. -/
def wordRuns (s : String) : List String := wordRunsAux [] s.data

/-- First-occurrence deduplication: the effect of `[...new Set(xs)]` in
JavaScript (iteration order of a `Set` is insertion order). -/
def dedupFirstAux {α : Type} [DecidableEq α] : List α → List α → List α
  | _, [] => []
  | seen, x :: xs =>
    if x ∈ seen then dedupFirstAux seen xs
    else x :: dedupFirstAux (x :: seen) xs

/-- Embeds `[...new Set(xs)]`: keeps the first occurrence of each element. -/
def dedupFirst {α : Type} [DecidableEq α] (l : List α) : List α := dedupFirstAux [] l

/-- Stop-word list of `isCommonWord` (AnalysisService.ts line 400). -/
def commonWords : List String :=
  ["the", "and", "for", "are", "but", "not", "you", "all", "can", "had",
   "her", "was", "one", "our", "out", "day", "get", "has", "him", "his",
   "how", "its", "may", "new", "now", "old", "see", "two", "who", "boy",
   "did", "does", "let", "put", "say", "she", "too", "use"]

/-- Embeds `isCommonWord` (AnalysisService.ts lines 399-402). -/
def isCommonWord (w : String) : Bool := commonWords.contains (lowerStr w)

/-- Dictionary of `isProgrammingTerm` (AnalysisService.ts line 405). -/
def programmingTerms : List String :=
  ["function", "variable", "array", "object", "method", "class", "loop",
   "condition", "string", "number", "boolean", "algorithm", "code", "syntax",
   "parameter", "return", "import", "export", "const", "async", "await"]

/-- Embeds `isProgrammingTerm` (AnalysisService.ts lines 404-407). -/
def isProgrammingTerm (w : String) : Bool := programmingTerms.contains (lowerStr w)

/-- Dictionary of `isTechnicalTerm` (AnalysisService.ts line 410). -/
def technicalTerms : List String :=
  ["implementation", "optimization", "performance", "complexity", "efficiency",
   "recursion", "iteration", "debugging", "testing", "documentation"]

/-- Embeds `isTechnicalTerm` (AnalysisService.ts lines 409-412). -/
def isTechnicalTerm (w : String) : Bool := technicalTerms.contains (lowerStr w)

/-- Embeds `extractKeyTerms` (AnalysisService.ts lines 248-258): word tokens of
length > 3 that are not stop words and belong to one of the two curated
dictionaries, deduplicated keeping first occurrences. -/
def extractKeyTerms (text : String) : List String :=
  let words := wordRuns text
  let filtered := words.filter fun w =>
    decide (3 < w.length) && !(isCommonWord w) && (isProgrammingTerm w || isTechnicalTerm w)
  dedupFirst filtered

/-- The per-response significant-term list: the source always feeds
`extractKeyTerms` the lower-cased response text (AnalysisService.ts
lines 120-122 and 197-198). -/
def keyTermsOf (text : String) : List String := extractKeyTerms (lowerStr text)

/-- Embeds `calculateTextSimilarity` (AnalysisService.ts lines 345-352): Jaccard
index of the two word lists viewed as sets, with the `union.size > 0`
guard of the source (0 when both sets are empty). -/
def calculateTextSimilarity (words1 words2 : List String) : ℚ :=
  let set1 := words1.toFinset
  let set2 := words2.toFinset
  let inter := set1 ∩ set2
  let union := set1 ∪ set2
  if 0 < union.card then (inter.card : ℚ) / (union.card : ℚ) else 0

/-- The `i < j` double loop of `calculateSimilarity` (AnalysisService.ts
lines 203-209), flattened: pairwise similarities of all unordered pairs. -/
def pairSims : List (List String) → List ℚ
  | [] => []
  | w :: ws => ws.map (calculateTextSimilarity w) ++ pairSims ws

/-- One backend's outcome for one prompt: the `AIResponse` interface of
AICompareService.ts lines 5-13. -/
structure AIResponse where
  provider : String
  model : String
  response : String
  timestamp : Nat
  responseTime : Nat
  tokenCount : Option Nat
  error : Option String
deriving DecidableEq, Repr

/-- Embeds `calculateSimilarity` (AnalysisService.ts lines 193-212): 1 for fewer
than two responses, otherwise the accumulated pairwise similarity divided
by the number of comparisons (0 if there were none). -/
def calculateSimilarity (responses : List AIResponse) : ℚ :=
  if responses.length < 2 then 1 else
  let allWords := responses.map fun r => extractKeyTerms (lowerStr r.response)
  let sims := pairSims allWords
  if 0 < sims.length then sims.sum / (sims.length : ℚ) else 0

/-- The backtick character. -/
def tickChar : Char := Char.ofNat 96

/-- Test for the backtick character. -/
def isTick (c : Char) : Bool := c = tickChar

/-- Three backticks, the fence delimiter. -/
def tickRun3 : List Char := [tickChar, tickChar, tickChar]

/-- A newline followed by three backticks: the pattern the lazy body group of
the code-block regex stops in front of. -/
def nlTicks : List Char := '\n' :: tickRun3

/-- Predicate `leadsWith pat l` is true when `pat` is an initial segment of `l`. -/
def leadsWith : List Char → List Char → Bool
  | [], _ => true
  | _ :: _, [] => false
  | p :: ps, c :: cs => p = c && leadsWith ps cs

/-- Index of the first occurrence of `pat` as a contiguous segment of `l`
(`none` when there is none): the search performed by the lazy group
`([\s\S]*?)` followed by `\n` plus three backticks. -/
def findPat (pat : List Char) : List Char → Option Nat
  | [] => if leadsWith pat [] then some 0 else none
  | c :: cs => if leadsWith pat (c :: cs) then some 0 else (findPat pat cs).map (· + 1)

/-- First defined value of `f` over `js`, in order: the backtracking order in
which the regex engine retries choices of the greedy `\s*`. -/
def firstSome {α : Type} (f : Nat → Option α) : List Nat → Option α
  | [] => none
  | j :: js => match f j with
    | some v => some v
    | none => firstSome f js

/-- The candidate lengths for the greedy `\s*` in `` ```(\w+)?\s*\n ``:
positions `j` inside the maximal whitespace run of `l` holding a newline
(`\s*` consumes `l[0..j)` and `\n` consumes `l[j]`), tried longest first. -/
def wsCands (l : List Char) : List Nat :=
  ((List.range (l.takeWhile isSpc).length).filter fun j => l.getD j tickChar = '\n').reverse

/-- One backtracking attempt at `\s*`-length `j`: after consuming `j`
whitespace characters and one newline, the lazy body group takes the
shortest segment followed by a newline and three backticks; the match
then also consumes those four characters. -/
def fenceTry (l : List Char) (j : Nat) : Option (List Char × List Char) :=
  let l2 := l.drop (j + 1)
  match findPat nlTicks l2 with
  | some p => some (l2.take p, l2.drop (p + 4))
  | none => none

/-- Resolution of `` \s*\n([\s\S]*?)\n``` `` after the optional language tag:
try every `\s*` length admitting a following newline, longest first. -/
def tryWs (l : List Char) : Option (List Char × List Char) :=
  firstSome (fenceTry l) (wsCands l)

/-- One attempt of the code-block regex
`` /```(\w+)?\s*\n([\s\S]*?)\n```/ `` anchored at the start of `cs`
(AnalysisService.ts line 233).  Returns the language-tag characters, the raw
body group, and the remainder of the text after the match.  The greedy
`(\w+)?` always takes the maximal word-character run after the three
backticks: shortening it can never help, because a word character matches
neither `\s` nor `\n`. -/
def matchAt : List Char → Option (List Char × List Char × List Char)
  | c1 :: c2 :: c3 :: rest =>
    if isTick c1 && isTick c2 && isTick c3 then
      match tryWs (rest.dropWhile isWordChar) with
      | some (body, r) => some (rest.takeWhile isWordChar, body, r)
      | none => none
    else none
  | _ => none

/-- A fenced code block: the `CodeBlock` interface of AnalysisService.ts
lines 3-8 (the optional `explanation` field is never set by the embedded
functions and is omitted). -/
structure CodeBlock where
  language : String
  code : String
  source : String
deriving DecidableEq, Repr

/-- Embeds `trim` of JavaScript: strip whitespace from both ends. -/
def trimL (l : List Char) : List Char :=
  ((l.dropWhile isSpc).reverse.dropWhile isSpc).reverse

/-- Block construction from one regex match (AnalysisService.ts lines
238-242): `match[1] || 'plaintext'` and `match[2].trim()`. -/
def mkBlock (lang body : List Char) : CodeBlock :=
  { language := if lang.isEmpty then "plaintext" else String.mk lang
    code := String.mk (trimL body)
    source := "unknown" }

/-- The `while (exec)` loop of `extractCodeBlocksFromText` with explicit
fuel: on a match, continue after the match; otherwise advance one position
(the engine retries the pattern at the next start index).  The fuel
`cs.length` always suffices because every step consumes at least one
character. -/
def scanGo : Nat → List Char → List CodeBlock
  | 0, _ => []
  | _ + 1, [] => []
  | f + 1, c :: cs =>
    match matchAt (c :: cs) with
    | some (lang, body, r) => mkBlock lang body :: scanGo f r
    | none => scanGo f cs

/-- All matches of the code-block regex over a character list. -/
def extractList (cs : List Char) : List CodeBlock := scanGo cs.length cs

/-- Embeds `extractCodeBlocksFromText` (AnalysisService.ts lines 232-246). -/
def extractCodeBlocksFromText (text : String) : List CodeBlock := extractList text.data

/-- Embeds `extractAllCodeBlocks` (AnalysisService.ts lines 56-70): blocks of every
response in order, with `source` set to the response's model name. -/
def extractAllCodeBlocks (rs : List AIResponse) : List CodeBlock :=
  rs.foldr (fun r acc =>
    ((extractCodeBlocksFromText r.response).map fun b => { b with source := r.model }) ++ acc) []

/-- Frequency-map update: `m[k] = (m[k] || 0) + 1` on a JavaScript object,
whose key iteration order is first-insertion order. -/
def bump : List (String × Nat) → String → List (String × Nat)
  | [], k => [(k, 1)]
  | (k', v) :: rest, k =>
    if k' = k then (k', v + 1) :: rest else (k', v) :: bump rest k

/-- Association-list read-out with default 0 (`m[k] || 0`). -/
def lk : List (String × Nat) → String → Nat
  | [], _ => 0
  | (k, v) :: rest, t => if k = t then v else lk rest t

/-- The `termFrequency` object of `findCommonPoints` (AnalysisService.ts
lines 125-131): for each response, each distinct significant term is
counted once. -/
def termFreqList (rs : List AIResponse) : List (String × Nat) :=
  rs.foldl (fun m r => (dedupFirst (keyTermsOf r.response)).foldl bump m) []

/-- Embeds `Math.ceil(n * 0.7)` (AnalysisService.ts line 133).  For every feasible
response count the floating-point product rounds to a value whose ceiling
equals the exact rational ceiling of `7n/10`. -/
def thresholdOf (n : Nat) : Nat := (7 * n + 9) / 10

/-- Embeds `findCommonCodePatterns` (AnalysisService.ts lines 325-343): one message
per language tag occurring in more than one extracted block, in
first-insertion order of the frequency object. -/
def findCommonCodePatterns (rs : List AIResponse) : List String :=
  let langs := (extractAllCodeBlocks rs).map (·.language)
  let langFreq := langs.foldl bump []
  (langFreq.filter fun p => 1 < p.2).map fun p =>
    "Both use " ++ p.1 ++ " for implementation"

/-- Embeds `findCommonPoints` (AnalysisService.ts lines 114-145): term mentions for
terms meeting the 70% threshold and length > 3, then common code patterns,
truncated by `slice(0, 5)`. -/
def findCommonPoints (rs : List AIResponse) : List String :=
  if rs.length < 2 then [] else
  let freq := termFreqList rs
  let thr := thresholdOf rs.length
  let termPts := (freq.filter fun p => decide (thr ≤ p.2) && decide (3 < p.1.length)).map
    fun p => "Both models mention " ++ p.1
  (termPts ++ findCommonCodePatterns rs).take 5

/-- Loop keywords of `assessCodeComplexity` (AnalysisService.ts line 364). -/
def loopKws : List String := ["for", "while", "foreach"]

/-- Branch keywords (AnalysisService.ts line 365). -/
def branchKws : List String := ["if", "else", "switch"]

/-- Function/class keywords (AnalysisService.ts line 366). -/
def funcKws : List String := ["class", "function", "def", "async"]

/-- Exception keywords (AnalysisService.ts line 367). -/
def excKws : List String := ["try", "catch", "exception"]

/-- Recursion keywords (AnalysisService.ts line 368). -/
def recKws : List String := ["recursion", "recursive"]

/-- Embeds `/\b(w1|w2|...)\b/.test(code)` for whole-word alternatives: true exactly
when some maximal word-character run of the text equals one of the words. -/
def hasKw (kws : List String) (code : String) : Bool :=
  (wordRuns code).any fun w => kws.contains w

/-- The score contribution of one code block in `assessCodeComplexity`
(AnalysisService.ts lines 360-369), computed on the lower-cased block body. -/
def blockScore (code : String) : Nat :=
  let c := lowerStr code
  (if hasKw loopKws c then 1 else 0) +
  (if hasKw branchKws c then 1 else 0) +
  (if hasKw funcKws c then 1 else 0) +
  (if hasKw excKws c then 2 else 0) +
  (if hasKw recKws c then 3 else 0)

/-- Embeds `assessCodeComplexity` (AnalysisService.ts lines 354-374): Low with no
code blocks; otherwise each block contributes its keyword score and the sum
is bucketed at 6 and 3. -/
def assessCodeComplexity (text : String) : String :=
  let blocks := extractCodeBlocksFromText text
  if blocks.length = 0 then "Low" else
  let score := blocks.foldl (fun s b => s + blockScore b.code) 0
  if 6 ≤ score then "High" else if 3 ≤ score then "Medium" else "Low"

/-- Wildcard pattern: `some c` matches exactly `c`, `none` is the regex dot
(any character except a line terminator). -/
def wildOfString (s : String) : List (Option Char) := s.data.map some

/-- Prefix match of a wildcard pattern, returning the remaining characters. -/
def matchWildRem : List (Option Char) → List Char → Option (List Char)
  | [], l => some l
  | _ :: _, [] => none
  | p :: ps, c :: cs =>
    match p with
    | some a => if a = c then matchWildRem ps cs else none
    | none =>
      if c = '\n' || c = '\r' || c = Char.ofNat 8232 || c = Char.ofNat 8233 then none
      else matchWildRem ps cs

/-- Word-boundary test against the neighbouring character (`none` = text
edge); the embedded patterns all begin and end with word characters. -/
def bndOk : Option Char → Bool
  | none => true
  | some c => !(isWordChar c)

/-- Does the pattern match at the head of `l` with a word boundary after it? -/
def wildHitsHere (p : List (Option Char)) (l : List Char) : Bool :=
  match matchWildRem p l with
  | some rest => bndOk rest.head?
  | none => false

/-- Scan all start positions, tracking the previous character for the
leading word boundary. -/
def wildScan (p : List (Option Char)) : Option Char → List Char → Bool
  | prev, [] => bndOk prev && wildHitsHere p []
  | prev, c :: t => (bndOk prev && wildHitsHere p (c :: t)) || wildScan p (some c) t

/-- Embeds `/\b(...)\b/.test(s)` for one word-bounded wildcard alternative. -/
def testWild (p : List (Option Char)) (s : String) : Bool := wildScan p none s.data

/-- The pattern `object.oriented` (regex dot) of AnalysisService.ts line 382. -/
def objOrientedPat : List (Option Char) :=
  wildOfString "object" ++ [none] ++ wildOfString "oriented"

/-- The pattern `step.by.step` of AnalysisService.ts line 388. -/
def stepByStepPat : List (Option Char) :=
  wildOfString "step" ++ [none] ++ wildOfString "by" ++ [none] ++ wildOfString "step"

/-- The tags one response contributes in `identifyProgrammingApproaches`
(AnalysisService.ts lines 379-394), tested on the lower-cased text, in push
order. -/
def approachTags (text : String) : List String :=
  let t := lowerStr text
  (if testWild objOrientedPat t || testWild (wildOfString "class") t ||
      testWild (wildOfString "inheritance") t then ["Object-Oriented"] else []) ++
  (if testWild (wildOfString "functional") t || testWild (wildOfString "lambda") t ||
      testWild (wildOfString "map") t || testWild (wildOfString "filter") t ||
      testWild (wildOfString "reduce") t then ["Functional"] else []) ++
  (if testWild (wildOfString "procedural") t || testWild stepByStepPat t
   then ["Procedural"] else []) ++
  (if testWild (wildOfString "async") t || testWild (wildOfString "await") t ||
      testWild (wildOfString "promise") t || testWild (wildOfString "callback") t
   then ["Asynchronous"] else [])

/-- Embeds `identifyProgrammingApproaches` (AnalysisService.ts lines 376-397). -/
def identifyProgrammingApproaches (rs : List AIResponse) : List String :=
  dedupFirst (rs.foldr (fun r acc => approachTags r.response ++ acc) [])

/-- One aspect/description pair of `keyDifferences`. -/
structure KeyDiff where
  aspect : String
  description : String
deriving DecidableEq, Repr

/-- Embeds `Math.max(...lengths)` over a non-empty list (0 for the impossible empty
case). -/
def listMax : List Nat → Nat
  | [] => 0
  | x :: xs => xs.foldl Nat.max x

/-- Embeds `Math.min(...lengths)` over a non-empty list. -/
def listMin : List Nat → Nat
  | [] => 0
  | x :: xs => xs.foldl Nat.min x

/-- The floating-point test `maxLength / minLength > 1.5` of
AnalysisService.ts line 157 on natural operands: division by zero yields
Infinity (fires whenever the maximum is positive), `0/0` is NaN (never
fires); otherwise the comparison is the exact rational one. -/
def ratioGt (maxL minL : Nat) : Bool :=
  if minL = 0 then decide (0 < maxL)
  else decide ((3 : ℚ) / 2 < (maxL : ℚ) / (minL : ℚ))

/-- Embeds `responses.find(r => r.response.length === L)?.model`, with JavaScript's
string rendering `"undefined"` for a missing match. -/
def modelOfLen (rs : List AIResponse) (L : Nat) : String :=
  ((rs.find? fun r => r.response.length = L).map (·.model)).getD "undefined"

/-- Embeds `Array.prototype.join(', ')`. -/
def joinComma : List String → String
  | [] => ""
  | [x] => x
  | x :: y :: rest => x ++ ", " ++ joinComma (y :: rest)

/-- The description of the length-disparity difference
(AnalysisService.ts line 163). -/
def lengthDiffDesc (rs : List AIResponse) (maxL minL : Nat) : String :=
  modelOfLen rs maxL ++ " provides more detailed explanation (" ++
    toString maxL ++ " chars vs " ++ toString minL ++ " chars)"

/-- Embeds `findKeyDifferences` (AnalysisService.ts lines 147-191): the length
disparity entry, then the complexity disparity entry, then the approach
disparity entry, each conditional. -/
def findKeyDifferences (rs : List AIResponse) : List KeyDiff :=
  if rs.length < 2 then [] else
  let lengths := rs.map fun r => r.response.length
  let maxL := listMax lengths
  let minL := listMin lengths
  let d1 : List KeyDiff :=
    if ratioGt maxL minL then [⟨"Response Length", lengthDiffDesc rs maxL minL⟩] else []
  let comps := rs.map fun r => (r.model, assessCodeComplexity r.response)
  let d2 : List KeyDiff :=
    if 1 < (dedupFirst (comps.map (·.2))).length then
      [⟨"Code Complexity", "Different complexity levels: " ++
         joinComma (comps.map fun c => c.1 ++ " (" ++ c.2 ++ ")")⟩]
    else []
  let apps := identifyProgrammingApproaches rs
  let d3 : List KeyDiff :=
    if 1 < apps.length then
      [⟨"Programming Approach", "Different approaches used: " ++ joinComma apps⟩]
    else []
  d1 ++ d2 ++ d3

/-- Per-model code statistics of `analyzeCodeBlocks`. -/
structure CodeStats where
  blockCount : Nat
  languages : List String
  complexity : String
deriving DecidableEq, Repr

/-- Embeds `analysis[key] = value` on a JavaScript object: replace in place or
append. -/
def setAssoc : List (String × CodeStats) → String → CodeStats → List (String × CodeStats)
  | [], k, v => [(k, v)]
  | (k', v') :: rest, k, v =>
    if k' = k then (k', v) :: rest else (k', v') :: setAssoc rest k v

/-- Embeds `analyzeCodeBlocks` (AnalysisService.ts lines 214-230). -/
def analyzeCodeBlocks (rs : List AIResponse) : List (String × CodeStats) :=
  rs.foldl (fun m r =>
    let blocks := extractCodeBlocksFromText r.response
    setAssoc m r.model
      ⟨blocks.length,
       dedupFirst ((blocks.map (·.language)).filter fun l => l ≠ ""),
       assessCodeComplexity r.response⟩) []

/-- The `AnalysisResult` interface (AnalysisService.ts lines 10-24). -/
structure AnalysisResult where
  overallSimilarity : ℚ
  commonPoints : List String
  keyDifferences : List KeyDiff
  codeAnalysis : List (String × CodeStats)
deriving DecidableEq, Repr

/-- Embeds `analyzeResponses` (AnalysisService.ts lines 42-54). -/
def analyzeResponses (rs : List AIResponse) : AnalysisResult :=
  ⟨calculateSimilarity rs, findCommonPoints rs, findKeyDifferences rs, analyzeCodeBlocks rs⟩

/-- The analysis-skip outcome of the pipeline. -/
inductive AnalysisFailure where
  | insufficientDataForAnalysis
deriving DecidableEq, Repr

/-- The analysis pipeline as invoked by `ResponseFormatter.formatAnalysis`
(ResponseFormatter.ts lines 119-129): filter to error-free responses, skip
with `InsufficientDataForAnalysis` when fewer than 2 remain, otherwise run
`analyzeResponses` on the successful ones. -/
def computeAnalysis (rs : List AIResponse) : Except AnalysisFailure AnalysisResult :=
  let successes := rs.filter fun r => r.error.isNone
  if successes.length < 2 then Except.error AnalysisFailure.insufficientDataForAnalysis
  else Except.ok (analyzeResponses successes)

/-! ### Orchestrator model (AICompareService.ts) -/

/-- One fan-out task of `compareModels`: its identity, its start and finish
times, and how its backend call settled.  `errorModel` is the model label
used on the error path (e.g. `"GPT-4o (Error)"`, AICompareService.ts
line 114). -/
instance : DecidableEq (Except String String) := fun a b =>
  match a, b with
  | Except.ok x, Except.ok y =>
    if h : x = y then isTrue (by rw [h]) else isFalse (by intro hc; cases hc; exact h rfl)
  | Except.ok _, Except.error _ => isFalse (by intro hc; cases hc)
  | Except.error _, Except.ok _ => isFalse (by intro hc; cases hc)
  | Except.error x, Except.error y =>
    if h : x = y then isTrue (by rw [h]) else isFalse (by intro hc; cases hc; exact h rfl)

structure TaskSpec where
  provider : String
  model : String
  errorModel : String
  startedAt : Nat
  finishedAt : Nat
  outcome : Except String String
deriving DecidableEq, Repr

/-- Embeds `estimateTokenCount` (AICompareService.ts lines 537-540):
`Math.ceil(text.length / 4)`. -/
def estimateTokenCount (text : String) : Nat := (text.length + 3) / 4

/-- The response a task pushes when it settles: the success push
(AICompareService.ts lines 93-100) or the catch-block push (lines 112-119)
that converts the failure into an error-tagged entry with empty text. -/
def settleTask (t : TaskSpec) : AIResponse :=
  match t.outcome with
  | Except.ok txt =>
    ⟨t.provider, t.model, txt, t.startedAt, t.finishedAt - t.startedAt,
     some (estimateTokenCount txt), none⟩
  | Except.error msg =>
    ⟨t.provider, t.errorModel, "", t.startedAt, t.finishedAt - t.startedAt,
     none, some msg⟩

/-- Stable insertion by `timestamp`: an element is placed before the first
element it is `≤`, so entries with equal timestamps keep their relative
order, exactly as the stable `Array.prototype.sort` with comparator
`(a, b) => a.timestamp - b.timestamp` (AICompareService.ts line 41). -/
def insertByTs (x : AIResponse) : List AIResponse → List AIResponse
  | [] => [x]
  | y :: ys => if x.timestamp ≤ y.timestamp then x :: y :: ys else y :: insertByTs x ys

/-- The stable sort by `timestamp` applied to the pushed responses. -/
def sortByTimestamp : List AIResponse → List AIResponse
  | [] => []
  | x :: xs => insertByTs x (sortByTimestamp xs)

/-- Embeds `compareModels` (AICompareService.ts lines 20-44) after all tasks have
settled: the argument lists the tasks in the order their pushes reached
`this.responses` (i.e. completion order); the result is that list settled
into responses and stably sorted by start timestamp. -/
def compareModels (completed : List TaskSpec) : List AIResponse :=
  sortByTimestamp (completed.map settleTask)

/-! ### Array-aliasing model for `getLastResponses` -/

/-- A minimal heap of arrays: cell `i` of `cells` is the array stored at
address `i`; allocation appends a cell. -/
structure ArrayHeap where
  cells : List (List AIResponse)
deriving Repr

/-- Cell lookup (empty for a dangling address). -/
def nthArr : List (List AIResponse) → Nat → List AIResponse
  | [], _ => []
  | x :: _, 0 => x
  | _ :: xs, n + 1 => nthArr xs n

/-- In-place update of a cell (no effect on a dangling address). -/
def setArr : List (List AIResponse) → Nat → List AIResponse → List (List AIResponse)
  | [], _, _ => []
  | _ :: xs, 0, v => v :: xs
  | x :: xs, n + 1, v => x :: setArr xs n v

/-- Read an array cell. -/
def readRef (h : ArrayHeap) (r : Nat) : List AIResponse := nthArr h.cells r

/-- In-place mutation of the array at an address. -/
def writeRef (h : ArrayHeap) (r : Nat) (v : List AIResponse) : ArrayHeap :=
  ⟨setArr h.cells r v⟩

/-- Embeds `getLastResponses` (AICompareService.ts lines 542-544):
`return [...this.responses]` copies the stored array into a freshly
allocated one and returns the fresh address. -/
def getLastResponses (h : ArrayHeap) (svc : Nat) : ArrayHeap × Nat :=
  (⟨h.cells ++ [readRef h svc]⟩, h.cells.length)

/-! ### Spec-side definitions

These follow the wording of the specification and of the claims; the
theorems compare them with the code-derived definitions above. -/

/-- Jaccard index of two term sets as the spec words it:
`|intersection| / |union|`, defined as 0 when both sets are empty. -/
def jaccardSpec (A B : Finset String) : ℚ :=
  if (A ∪ B).card = 0 then 0 else ((A ∩ B).card : ℚ) / ((A ∪ B).card : ℚ)

/-- The extracted significant-term set of one response text. -/
def termSetOf (text : String) : Finset String := (keyTermsOf text).toFinset

/-- Sum of the spec-side Jaccard indices over all unordered pairs. -/
def pairJaccards : List (Finset String) → List ℚ
  | [] => []
  | A :: As => As.map (jaccardSpec A) ++ pairJaccards As

/-- Number of responses whose significant-term set contains `t` (the claim's
notion of a term's frequency across responses). -/
def countRespMentioning (rs : List AIResponse) (t : String) : Nat :=
  (rs.filter fun r => decide (t ∈ keyTermsOf r.response)).length

/-- Number of occurrences of a string in a list (used to relate frequency
objects to the lists they were built from). -/
def countStr (a : String) (l : List String) : Nat :=
  (l.filter fun x => x = a).length

/-- Number of extracted code blocks (across all responses) tagged with the
given language. -/
def countBlocksWithLang (rs : List AIResponse) (l : String) : Nat :=
  countStr l ((extractAllCodeBlocks rs).map (·.language))

/-- Number of responses that have at least one code block tagged with the
given language (the claim's notion of a language "appearing in code blocks
of at least 2 responses"). -/
def countRespWithLang (rs : List AIResponse) (l : String) : Nat :=
  (rs.filter fun r => (extractCodeBlocksFromText r.response).any fun b => b.language = l).length

/-- All significant terms across the responses, in order of first
appearance (responses in order, each response's terms in text order). -/
def termsInOrder (rs : List AIResponse) : List String :=
  dedupFirst (rs.flatMap fun r => keyTermsOf r.response)

/-- The qualifying terms, in first-appearance order: frequency across
responses at least `ceil(0.7 N)` and length > 3. -/
def qualifyingTerms (rs : List AIResponse) : List String :=
  (termsInOrder rs).filter fun t =>
    decide (thresholdOf rs.length ≤ countRespMentioning rs t) && decide (3 < t.length)

/-- All code-block language tags across the responses, in order of first
appearance. -/
def languagesInOrder (rs : List AIResponse) : List String :=
  dedupFirst ((extractAllCodeBlocks rs).map fun b => b.language)

/-- The language tags appearing in more than one extracted code block, in
first-appearance order. -/
def commonLanguages (rs : List AIResponse) : List String :=
  (languagesInOrder rs).filter fun l => decide (2 ≤ countBlocksWithLang rs l)

/-- The complexity bucket as claim C6 words it: one presence flag per
keyword category, scanned across all of the response's extracted code
bodies together, then bucketed at 6 and 3. -/
def claimComplexity (text : String) : String :=
  let blocks := extractCodeBlocksFromText text
  if blocks.length = 0 then "Low" else
  let codes := blocks.map fun b => lowerStr b.code
  let score : Nat :=
    (if codes.any (hasKw loopKws) then 1 else 0) +
    (if codes.any (hasKw branchKws) then 1 else 0) +
    (if codes.any (hasKw funcKws) then 1 else 0) +
    (if codes.any (hasKw excKws) then 2 else 0) +
    (if codes.any (hasKw recKws) then 3 else 0)
  if 6 ≤ score then "High" else if 3 ≤ score then "Medium" else "Low"

/-- The amended per-response complexity: the per-block keyword scores are
summed over the blocks (map-and-sum formulation). -/
def amendedComplexity (text : String) : String :=
  let blocks := extractCodeBlocksFromText text
  if blocks.length = 0 then "Low" else
  let score : Nat := (blocks.map fun b => blockScore b.code).sum
  if 6 ≤ score then "High" else if 3 ≤ score then "Medium" else "Low"

/-- A well-formed fenced region for the round-trip statement: a language tag
(possibly empty, meaning omitted) and a body. -/
structure FenceSpec where
  tag : List Char
  body : List Char
deriving DecidableEq, Repr

/-- The canonical rendering of one fenced region: three backticks, the tag,
a newline, the body, a newline, three backticks. -/
def fenceText (f : FenceSpec) : List Char :=
  tickRun3 ++ f.tag ++ '\n' :: (f.body ++ '\n' :: tickRun3)

/-- A text assembled from fenced regions and the separator texts around
them: `pre` before the first region, each region followed by its separator. -/
def renderFenced : List Char → List (FenceSpec × List Char) → List Char
  | pre, [] => pre
  | pre, (f, sep) :: rest => pre ++ (fenceText f ++ renderFenced sep rest)

/-- Does a character list contain a run of three backticks? -/
def hasTriple : List Char → Bool
  | [] => false
  | c :: cs => leadsWith tickRun3 (c :: cs) || hasTriple cs

/-- Side conditions on one region: a word-character tag, no triple-backtick
run in the body, and at least one non-whitespace body character. -/
def goodFence (f : FenceSpec) : Prop :=
  f.tag.all isWordChar = true ∧ hasTriple f.body = false ∧
    (f.body.all isSpc) = false

/-- Side condition on separator text: it contains no backtick. -/
def goodSep (sep : List Char) : Prop := ∀ c ∈ sep, isTick c = false

/-- The block the round trip expects from one region. -/
def blockOf (f : FenceSpec) : CodeBlock :=
  { language := if f.tag.isEmpty then "plaintext" else String.mk f.tag
    code := String.mk (trimL f.body)
    source := "unknown" }

instance (sep : List Char) : Decidable (goodSep sep) := by
  unfold goodSep
  infer_instance

instance (f : FenceSpec) : Decidable (goodFence f) := by
  unfold goodFence
  infer_instance

/-! ## Theorems -/

/-- C1: with fewer than 2 error-free responses the analysis pipeline filters
to the successful responses and fails with `InsufficientDataForAnalysis`;
with at least 2 it returns the analysis of exactly the successful ones,
never a partially computed result. -/
theorem c1_insufficient_data (rs : List AIResponse) :
    ((rs.countP fun r => r.error.isNone) < 2 →
      computeAnalysis rs = Except.error AnalysisFailure.insufficientDataForAnalysis) ∧
    (2 ≤ (rs.countP fun r => r.error.isNone) →
      computeAnalysis rs = Except.ok (analyzeResponses (rs.filter fun r => r.error.isNone))) := by
  have hc : (rs.countP fun r => r.error.isNone) = (rs.filter fun r => r.error.isNone).length :=
    List.countP_eq_length_filter _ _
  constructor
  · intro h
    rw [hc] at h
    simp only [computeAnalysis, if_pos h]
  · intro h
    rw [hc] at h
    simp only [computeAnalysis,
      if_neg (by omega : ¬ (rs.filter fun r => r.error.isNone).length < 2)]

/-- C1 witness: 1 successful and 3 error-tagged responses signal
`InsufficientDataForAnalysis`. -/
theorem c1_witness :
    computeAnalysis
      [⟨"P", "M", "some text", 0, 0, none, none⟩,
       ⟨"P", "E1 (Error)", "", 0, 0, none, some "timeout"⟩,
       ⟨"P", "E2 (Error)", "", 0, 0, none, some "throttled"⟩,
       ⟨"P", "E3 (Error)", "", 0, 0, none, some "blocked"⟩]
      = Except.error AnalysisFailure.insufficientDataForAnalysis :=
  (c1_insufficient_data _).1 (by decide)

/-- C3 counterexample: a text with no significant terms (here the empty
text) compared against an identical copy of itself yields pairwise
similarity 0, not 1: the pairwise term-set similarity function is not
reflexive on every text. -/
theorem c3_counterexample :
    ¬ calculateTextSimilarity (keyTermsOf "") (keyTermsOf "") = 1 := by decide

/-- C3 amended: for every text whose extracted significant-term list is
non-empty, comparing the text against an identical copy of itself yields
pairwise Jaccard similarity exactly 1 (when the term set is empty the
source's `union.size > 0` guard yields 0 instead). -/
theorem c3_amended (t : String) (h : keyTermsOf t ≠ []) :
    calculateTextSimilarity (keyTermsOf t) (keyTermsOf t) = 1 := by
  unfold calculateTextSimilarity
  have hne : (keyTermsOf t).toFinset.Nonempty := by
    cases hk : keyTermsOf t with
    | nil => exact absurd hk h
    | cons a l => exact ⟨a, by simp [hk]⟩
  have hcard : 0 < (keyTermsOf t).toFinset.card := Finset.card_pos.mpr hne
  simp only [Finset.inter_self, Finset.union_self, if_pos hcard]
  have hnz : ((keyTermsOf t).toFinset.card : ℚ) ≠ 0 := by
    exact_mod_cast Nat.pos_iff_ne_zero.mp hcard
  exact div_self hnz

/-- C3 witness: a text consisting of one significant term. -/
theorem c3_witness :
    keyTermsOf "function" ≠ [] ∧
      calculateTextSimilarity (keyTermsOf "function") (keyTermsOf "function") = 1 :=
  ⟨by decide, c3_amended "function" (by decide)⟩

/-- A response text made of three code blocks, each containing one branch
keyword. -/
def cx6Text : String := "```\nif a\n```\n```\nif b\n```\n```\nif c\n```"

/-- C6 counterexample: on a response with three code blocks each containing
an `if`, the source adds +1 per block (score 3, bucket Medium), while the
claimed presence-based scoring over all code bodies gives score 1 (bucket
Low): the claimed formula does not compute the code's bucket. -/
theorem c6_counterexample :
    assessCodeComplexity cx6Text ≠ claimComplexity cx6Text ∧
      assessCodeComplexity cx6Text = "Medium" ∧ claimComplexity cx6Text = "Low" := by
  decide

/-- Folding the per-block score accumulation equals summing the mapped
scores. -/
theorem foldl_add_blockScore (l : List CodeBlock) (s : Nat) :
    l.foldl (fun a b => a + blockScore b.code) s = s + (l.map fun b => blockScore b.code).sum := by
  induction l generalizing s with
  | nil => simp
  | cons x xs ih => simp only [List.foldl_cons, List.map_cons, List.sum_cons, ih]; omega

/-- C6 amended: the complexity bucket is computed from the sum over the
response's extracted code blocks of per-block keyword scores (+1 loop, +1
branch, +1 function/class/async, +2 exception, +3 recursion, per block in
which the category is present), bucketed at ≥ 6 High and ≥ 3 Medium; a
response with zero code blocks is always Low. -/
theorem c6_amended (t : String) :
    assessCodeComplexity t = amendedComplexity t ∧
      (extractCodeBlocksFromText t = [] → assessCodeComplexity t = "Low") := by
  constructor
  · simp only [assessCodeComplexity, amendedComplexity, foldl_add_blockScore, Nat.zero_add]
  · intro h
    simp [assessCodeComplexity, h]

/-- C6 witness: a prose-only response has no code blocks and is Low. -/
theorem c6_witness :
    assessCodeComplexity "no code here" = amendedComplexity "no code here" ∧
      assessCodeComplexity "no code here" = "Low" :=
  ⟨(c6_amended "no code here").1, (c6_amended "no code here").2 (by decide)⟩

/-- Lookup at the address of a freshly appended cell. -/
theorem nthArr_append_len (l : List (List AIResponse)) (x : List AIResponse) :
    nthArr (l ++ [x]) l.length = x := by
  induction l with
  | nil => rfl
  | cons y ys ih => simpa [nthArr] using ih

/-- Lookup below the length of the left part of an append. -/
theorem nthArr_append_lt (l l₂ : List (List AIResponse)) (n : Nat) (h : n < l.length) :
    nthArr (l ++ l₂) n = nthArr l n := by
  induction l generalizing n with
  | nil => cases h
  | cons y ys ih =>
    cases n with
    | zero => rfl
    | succ m => exact ih m (by simpa using h)

/-- Updating one cell leaves every other cell unchanged. -/
theorem nthArr_setArr_ne (l : List (List AIResponse)) (n m : Nat) (v : List AIResponse)
    (h : n ≠ m) : nthArr (setArr l n v) m = nthArr l m := by
  induction l generalizing n m with
  | nil => rfl
  | cons y ys ih =>
    cases n with
    | zero => cases m with
      | zero => exact absurd rfl h
      | succ k => rfl
    | succ n' => cases m with
      | zero => rfl
      | succ m' => exact ih n' m' (by omega)

/-- C10: `getLastResponses` returns a fresh copy of the stored response
list: the returned array holds exactly the stored entries, its address is
distinct from the service's slot, and mutating the returned array leaves
the service's stored list unchanged, so a subsequent call returns the same
entries. -/
theorem c10_fresh_copy (h : ArrayHeap) (svc : Nat) (hlt : svc < h.cells.length) :
    readRef (getLastResponses h svc).1 (getLastResponses h svc).2 = readRef h svc ∧
    (getLastResponses h svc).2 ≠ svc ∧
    (∀ v, readRef (writeRef (getLastResponses h svc).1 (getLastResponses h svc).2 v) svc
            = readRef h svc) ∧
    (∀ v,
      readRef
        (getLastResponses (writeRef (getLastResponses h svc).1 (getLastResponses h svc).2 v) svc).1
        (getLastResponses (writeRef (getLastResponses h svc).1 (getLastResponses h svc).2 v) svc).2
        = readRef h svc) := by
  have hret : (getLastResponses h svc).2 = h.cells.length := rfl
  have hcells : (getLastResponses h svc).1.cells = h.cells ++ [readRef h svc] := rfl
  have h1 : readRef (getLastResponses h svc).1 (getLastResponses h svc).2 = readRef h svc := by
    show nthArr (h.cells ++ [readRef h svc]) h.cells.length = readRef h svc
    exact nthArr_append_len _ _
  have h3 : ∀ v, readRef (writeRef (getLastResponses h svc).1 (getLastResponses h svc).2 v) svc
      = readRef h svc := by
    intro v
    show nthArr (setArr (h.cells ++ [readRef h svc]) h.cells.length v) svc = readRef h svc
    rw [nthArr_setArr_ne _ _ _ _ (by omega)]
    exact nthArr_append_lt _ _ _ hlt
  refine ⟨h1, by omega, h3, fun v => ?_⟩
  show nthArr ((writeRef (getLastResponses h svc).1 (getLastResponses h svc).2 v).cells ++
      [readRef (writeRef (getLastResponses h svc).1 (getLastResponses h svc).2 v) svc])
      (writeRef (getLastResponses h svc).1 (getLastResponses h svc).2 v).cells.length
      = readRef h svc
  rw [nthArr_append_len]
  exact h3 v

/-- C10 witness: a one-cell heap holding one stored response. -/
theorem c10_witness :
    readRef (getLastResponses ⟨[[⟨"P", "M", "t", 0, 0, none, none⟩]]⟩ 0).1
        (getLastResponses ⟨[[⟨"P", "M", "t", 0, 0, none, none⟩]]⟩ 0).2
      = readRef ⟨[[⟨"P", "M", "t", 0, 0, none, none⟩]]⟩ 0 ∧
    ∀ v, readRef
        (writeRef (getLastResponses ⟨[[⟨"P", "M", "t", 0, 0, none, none⟩]]⟩ 0).1
          (getLastResponses ⟨[[⟨"P", "M", "t", 0, 0, none, none⟩]]⟩ 0).2 v) 0
      = readRef ⟨[[⟨"P", "M", "t", 0, 0, none, none⟩]]⟩ 0 :=
  ⟨(c10_fresh_copy _ 0 (by decide)).1, (c10_fresh_copy _ 0 (by decide)).2.2.1⟩

/-- Stable insertion produces a permutation of consing. -/
theorem insertByTs_perm (x : AIResponse) (l : List AIResponse) :
    (insertByTs x l).Perm (x :: l) := by
  induction l with
  | nil => exact List.Perm.refl _
  | cons y ys ih =>
    unfold insertByTs
    by_cases h : x.timestamp ≤ y.timestamp
    · rw [if_pos h]
    · rw [if_neg h]
      exact (ih.cons y).trans (List.Perm.swap x y ys)

/-- The embedded stable sort permutes its input. -/
theorem sortByTimestamp_perm (l : List AIResponse) : (sortByTimestamp l).Perm l := by
  induction l with
  | nil => exact List.Perm.refl _
  | cons x xs ih => exact (insertByTs_perm x (sortByTimestamp xs)).trans (ih.cons x)

/-- Function `settleTask` is total and labels a failed task with the error message
and an empty text; this is the content of the success/catch pushes. -/
theorem settleTask_error (t : TaskSpec) (msg : String) (h : t.outcome = Except.error msg) :
    (settleTask t).error = some msg ∧ (settleTask t).response = "" := by
  simp [settleTask, h]

/-- Function `settleTask` on a successful task keeps the text and sets no error. -/
theorem settleTask_ok (t : TaskSpec) (txt : String) (h : t.outcome = Except.ok txt) :
    (settleTask t).error = none ∧ (settleTask t).response = txt := by
  simp [settleTask, h]

/-- C7: every fan-out task, failed or not, contributes exactly one entry to
the resolved call (the result is a permutation of the settled tasks and has
one entry per task); a failed task's entry is error-tagged with the failure
message and an empty text, and a successful one keeps its text with no
error — failures are converted, never propagated, and never remove sibling
entries. -/
theorem c7_failure_isolation (ts : List TaskSpec) :
    (compareModels ts).length = ts.length ∧
    (compareModels ts).Perm (ts.map settleTask) ∧
    (∀ t ∈ ts, ∀ msg, t.outcome = Except.error msg →
      settleTask t ∈ compareModels ts ∧ (settleTask t).error = some msg ∧
        (settleTask t).response = "") ∧
    (∀ t ∈ ts, ∀ txt, t.outcome = Except.ok txt →
      settleTask t ∈ compareModels ts ∧ (settleTask t).error = none ∧
        (settleTask t).response = txt) := by
  have hperm : (compareModels ts).Perm (ts.map settleTask) := sortByTimestamp_perm _
  refine ⟨by rw [hperm.length_eq, List.length_map], hperm, ?_, ?_⟩
  · intro t ht msg hout
    exact ⟨hperm.mem_iff.mpr (List.mem_map_of_mem _ ht),
           (settleTask_error t msg hout).1, (settleTask_error t msg hout).2⟩
  · intro t ht txt hout
    exact ⟨hperm.mem_iff.mpr (List.mem_map_of_mem _ ht),
           (settleTask_ok t txt hout).1, (settleTask_ok t txt hout).2⟩

/-- C7 witness: two backends, one throwing an internal error — the call
resolves with exactly 2 entries, among them the error-tagged one with the
message set and empty text. -/
theorem c7_witness :
    (compareModels
        [⟨"GitHub Copilot", "GPT-4o", "GPT-4o (Error)", 100, 110, Except.error "boom"⟩,
         ⟨"GitHub Copilot", "Claude 3.5 Sonnet", "Claude 3.5 Sonnet (Error)", 101, 120,
           Except.ok "fine"⟩]).length = 2 ∧
    settleTask ⟨"GitHub Copilot", "GPT-4o", "GPT-4o (Error)", 100, 110, Except.error "boom"⟩
      ∈ compareModels
        [⟨"GitHub Copilot", "GPT-4o", "GPT-4o (Error)", 100, 110, Except.error "boom"⟩,
         ⟨"GitHub Copilot", "Claude 3.5 Sonnet", "Claude 3.5 Sonnet (Error)", 101, 120,
           Except.ok "fine"⟩] ∧
    (settleTask
        ⟨"GitHub Copilot", "GPT-4o", "GPT-4o (Error)", 100, 110, Except.error "boom"⟩).error
      = some "boom" ∧
    (settleTask
        ⟨"GitHub Copilot", "GPT-4o", "GPT-4o (Error)", 100, 110, Except.error "boom"⟩).response
      = "" := by
  have h := c7_failure_isolation
    [⟨"GitHub Copilot", "GPT-4o", "GPT-4o (Error)", 100, 110, Except.error "boom"⟩,
     ⟨"GitHub Copilot", "Claude 3.5 Sonnet", "Claude 3.5 Sonnet (Error)", 101, 120,
       Except.ok "fine"⟩]
  have h3 := h.2.2.1
    ⟨"GitHub Copilot", "GPT-4o", "GPT-4o (Error)", 100, 110, Except.error "boom"⟩
    (List.mem_cons_self _ _) "boom" rfl
  exact ⟨h.1.trans rfl, h3.1, h3.2.1, h3.2.2⟩

/-- Two tasks submitted in the same millisecond (equal `startedAt`); the
stable sort keeps their completion order. -/
def tieTaskA : TaskSpec :=
  ⟨"GitHub Copilot", "GPT-4o", "GPT-4o (Error)", 100, 110, Except.ok "alpha"⟩

/-- The sibling task with the same start timestamp. -/
def tieTaskB : TaskSpec :=
  ⟨"GitHub Copilot", "Claude 3.5 Sonnet", "Claude 3.5 Sonnet (Error)", 100, 120,
    Except.ok "beta"⟩

/-- C8 counterexample: with two backends whose tasks start in the same
millisecond, the two completion orders of the same backend set produce
different outputs — the returned order is not deterministic regardless of
completion order, because the stable sort preserves completion order
between equal start timestamps. -/
theorem c8_counterexample :
    ([tieTaskA, tieTaskB] : List TaskSpec).Perm [tieTaskB, tieTaskA] ∧
      compareModels [tieTaskA, tieTaskB] ≠ compareModels [tieTaskB, tieTaskA] :=
  ⟨List.Perm.swap tieTaskB tieTaskA [], by decide⟩

/-- Stable insertion preserves sortedness by timestamp. -/
theorem insertByTs_sorted (x : AIResponse) (l : List AIResponse)
    (h : l.Pairwise fun a b => a.timestamp ≤ b.timestamp) :
    (insertByTs x l).Pairwise fun a b => a.timestamp ≤ b.timestamp := by
  induction l with
  | nil => simp [insertByTs]
  | cons y ys ih =>
    rcases List.pairwise_cons.mp h with ⟨hy, hys⟩
    unfold insertByTs
    by_cases hxy : x.timestamp ≤ y.timestamp
    · rw [if_pos hxy]
      refine List.pairwise_cons.mpr ⟨?_, h⟩
      intro z hz
      rcases List.mem_cons.mp hz with hzy | hzys
      · rw [hzy]; exact hxy
      · exact hxy.trans (hy z hzys)
    · rw [if_neg hxy]
      refine List.pairwise_cons.mpr ⟨?_, ih hys⟩
      intro z hz
      rcases List.mem_cons.mp ((insertByTs_perm x ys).mem_iff.mp hz) with hzx | hzys
      · subst hzx; omega
      · exact hy z hzys

/-- The embedded stable sort yields a list sorted by timestamp. -/
theorem sortByTimestamp_sorted (l : List AIResponse) :
    (sortByTimestamp l).Pairwise fun a b => a.timestamp ≤ b.timestamp := by
  induction l with
  | nil => simp [sortByTimestamp]
  | cons x xs ih => exact insertByTs_sorted x (sortByTimestamp xs) ih

/-- With pairwise-distinct timestamps the stable sort is completion-order
independent. -/
theorem sortByTimestamp_eq_of_perm (l₁ l₂ : List AIResponse) (hp : l₁.Perm l₂)
    (hnd : (l₁.map fun r => r.timestamp).Nodup) :
    sortByTimestamp l₁ = sortByTimestamp l₂ := by
  have hperm : (sortByTimestamp l₁).Perm (sortByTimestamp l₂) :=
    (sortByTimestamp_perm l₁).trans (hp.trans (sortByTimestamp_perm l₂).symm)
  have hnd₁ : ((sortByTimestamp l₁).map fun r => r.timestamp).Nodup :=
    (((sortByTimestamp_perm l₁).map fun r => r.timestamp).nodup_iff).mpr hnd
  have hnd₂ : ((sortByTimestamp l₂).map fun r => r.timestamp).Nodup :=
    (((sortByTimestamp_perm l₂).map fun r => r.timestamp).nodup_iff).mpr
      ((hp.map fun r => r.timestamp).nodup_iff.mp hnd)
  have hstrict₁ : (sortByTimestamp l₁).Pairwise fun a b => a.timestamp < b.timestamp :=
    ((sortByTimestamp_sorted l₁).and (List.pairwise_map.mp hnd₁)).imp
      fun hab => Nat.lt_of_le_of_ne hab.1 hab.2
  have hstrict₂ : (sortByTimestamp l₂).Pairwise fun a b => a.timestamp < b.timestamp :=
    ((sortByTimestamp_sorted l₂).and (List.pairwise_map.mp hnd₂)).imp
      fun hab => Nat.lt_of_le_of_ne hab.1 hab.2
  haveI : IsAntisymm AIResponse (fun a b => a.timestamp < b.timestamp) :=
    ⟨fun a b h1 h2 => absurd h1 (by omega)⟩
  exact List.eq_of_perm_of_sorted hperm hstrict₁ hstrict₂

/-- C8 amended: the returned sequence is always sorted ascending by start
timestamp (stable, so entries with equal start timestamps keep their
completion order), and whenever the tasks' start timestamps are pairwise
distinct the output is deterministic regardless of the order in which
tasks complete. -/
theorem c8_sorted_by_start (ts : List TaskSpec) :
    ((compareModels ts).Pairwise fun a b => a.timestamp ≤ b.timestamp) ∧
    (∀ ts₂ : List TaskSpec, ts.Perm ts₂ → ((ts.map fun t => t.startedAt).Nodup) →
      compareModels ts = compareModels ts₂) := by
  refine ⟨sortByTimestamp_sorted _, fun ts₂ hp hnd => ?_⟩
  have hts : ∀ l : List TaskSpec,
      ((l.map settleTask).map fun r => r.timestamp) = l.map fun t => t.startedAt := by
    intro l
    rw [List.map_map]
    refine List.map_congr_left fun t _ => ?_
    cases ho : t.outcome <;> simp [settleTask, ho]
  exact sortByTimestamp_eq_of_perm _ _ (hp.map settleTask) (by rw [hts]; exact hnd)

/-- C8 witness: two tasks with distinct start timestamps give the same
output in either completion order. -/
theorem c8_witness :
    compareModels
        [⟨"GitHub Copilot", "GPT-4o", "GPT-4o (Error)", 100, 110, Except.ok "alpha"⟩,
         ⟨"GitHub Copilot", "Claude 3.5 Sonnet", "Claude 3.5 Sonnet (Error)", 101, 120,
           Except.ok "beta"⟩]
      = compareModels
        [⟨"GitHub Copilot", "Claude 3.5 Sonnet", "Claude 3.5 Sonnet (Error)", 101, 120,
           Except.ok "beta"⟩,
         ⟨"GitHub Copilot", "GPT-4o", "GPT-4o (Error)", 100, 110, Except.ok "alpha"⟩] :=
  (c8_sorted_by_start _).2 _ (List.Perm.swap _ _ _) (by decide)

/-- The source's pairwise similarity is the spec's Jaccard index of the two
term sets. -/
theorem calculateTextSimilarity_eq_jaccard (w1 w2 : List String) :
    calculateTextSimilarity w1 w2 = jaccardSpec w1.toFinset w2.toFinset := by
  unfold calculateTextSimilarity jaccardSpec
  by_cases h : (w1.toFinset ∪ w2.toFinset).card = 0
  · simp [h]
  · simp [h, Nat.pos_of_ne_zero h]

/-- The flattened pair loop computes the spec-side pairwise Jaccard list. -/
theorem pairJaccards_toFinset (l : List (List String)) :
    pairJaccards (l.map List.toFinset) = pairSims l := by
  induction l with
  | nil => rfl
  | cons w ws ih =>
    simp only [List.map_cons, pairJaccards, pairSims, ih, List.map_map]
    congr 1
    exact List.map_congr_left fun w' _ => (calculateTextSimilarity_eq_jaccard w w').symm

/-- The pair loop performs exactly `n choose 2` comparisons. -/
theorem pairSims_length (l : List (List String)) :
    (pairSims l).length = Nat.choose l.length 2 := by
  induction l with
  | nil => rfl
  | cons w ws ih =>
    simp only [pairSims, List.length_append, List.length_map, ih, List.length_cons]
    rw [Nat.choose_succ_succ ws.length 1, Nat.choose_one_right]

/-- Each pairwise similarity lies in `[0, 1]`. -/
theorem calculateTextSimilarity_bounds (w1 w2 : List String) :
    0 ≤ calculateTextSimilarity w1 w2 ∧ calculateTextSimilarity w1 w2 ≤ 1 := by
  unfold calculateTextSimilarity
  by_cases h : 0 < (w1.toFinset ∪ w2.toFinset).card
  · rw [if_pos h]
    constructor
    · positivity
    · rw [div_le_one (by exact_mod_cast h)]
      exact_mod_cast Finset.card_le_card
        (Finset.inter_subset_union (s := w1.toFinset) (t := w2.toFinset))
  · rw [if_neg h]
    norm_num

/-- Every element the pair loop produces lies in `[0, 1]`. -/
theorem pairSims_mem_bounds (l : List (List String)) (x : ℚ) (hx : x ∈ pairSims l) :
    0 ≤ x ∧ x ≤ 1 := by
  induction l with
  | nil => cases hx
  | cons w ws ih =>
    rcases List.mem_append.mp hx with hm | hm
    · rcases List.mem_map.mp hm with ⟨w', _, rfl⟩
      exact calculateTextSimilarity_bounds w w'
    · exact ih hm

/-- A list of rationals in `[0, 1]` sums to something in `[0, length]`. -/
theorem sum_bounds_of_mem (l : List ℚ) (h : ∀ x ∈ l, 0 ≤ x ∧ x ≤ 1) :
    0 ≤ l.sum ∧ l.sum ≤ (l.length : ℚ) := by
  induction l with
  | nil => simp
  | cons x xs ih =>
    have hx := h x (List.mem_cons_self x xs)
    have hxs := ih fun y hy => h y (List.mem_cons_of_mem x hy)
    simp only [List.sum_cons, List.length_cons]
    constructor
    · linarith [hx.1, hxs.1]
    · push_cast
      linarith [hx.2, hxs.2]

/-- C2: for at least 2 responses, `overallSimilarity` is the arithmetic mean
over all unordered pairs of responses of the Jaccard indices of their
extracted significant-term sets (0 when both sets are empty), and therefore
lies in `[0, 1]`. -/
theorem c2_similarity_mean (rs : List AIResponse) (h : 2 ≤ rs.length) :
    calculateSimilarity rs
      = (pairJaccards (rs.map fun r => termSetOf r.response)).sum
          / (Nat.choose rs.length 2 : ℚ) ∧
    0 ≤ calculateSimilarity rs ∧ calculateSimilarity rs ≤ 1 := by
  have hn : ¬ rs.length < 2 := by omega
  have hmap : (rs.map fun r => termSetOf r.response)
      = (rs.map fun r => extractKeyTerms (lowerStr r.response)).map List.toFinset := by
    rw [List.map_map]; rfl
  have hpj : pairJaccards (rs.map fun r => termSetOf r.response)
      = pairSims (rs.map fun r => extractKeyTerms (lowerStr r.response)) := by
    rw [hmap, pairJaccards_toFinset]
  have hlen : (pairSims (rs.map fun r => extractKeyTerms (lowerStr r.response))).length
      = Nat.choose rs.length 2 := by
    rw [pairSims_length, List.length_map]
  have hpos : 0 < Nat.choose rs.length 2 := Nat.choose_pos h
  have hval : calculateSimilarity rs
      = (pairSims (rs.map fun r => extractKeyTerms (lowerStr r.response))).sum
          / (Nat.choose rs.length 2 : ℚ) := by
    simp only [calculateSimilarity, if_neg hn]
    rw [if_pos (by rw [hlen]; exact hpos), hlen]
  have hb := sum_bounds_of_mem _
    (fun x hx => pairSims_mem_bounds (rs.map fun r => extractKeyTerms (lowerStr r.response)) x hx)
  refine ⟨by rw [hval, hpj], ?_, ?_⟩
  · rw [hval]
    exact div_nonneg hb.1 (by positivity)
  · rw [hval, div_le_one (by exact_mod_cast hpos)]
    calc (pairSims (rs.map fun r => extractKeyTerms (lowerStr r.response))).sum
        ≤ ((pairSims (rs.map fun r => extractKeyTerms (lowerStr r.response))).length : ℚ) := hb.2
      _ = (Nat.choose rs.length 2 : ℚ) := by exact_mod_cast congrArg Nat.cast hlen

/-- C2 witness: two identical one-term responses have mean similarity 1. -/
theorem c2_witness :
    0 ≤ calculateSimilarity
        [⟨"P", "A", "a function", 0, 0, none, none⟩, ⟨"P", "B", "a function", 1, 0, none, none⟩] ∧
    calculateSimilarity
        [⟨"P", "A", "a function", 0, 0, none, none⟩, ⟨"P", "B", "a function", 1, 0, none, none⟩]
      ≤ 1 :=
  (c2_similarity_mean _ (by decide)).2

/-- The source's floating-point ratio test agrees with the integer
inequality `3 · min < 2 · max` on all natural operands (division by zero
giving Infinity, `0/0` giving NaN). -/
theorem ratioGt_iff (maxL minL : Nat) :
    ratioGt maxL minL = true ↔ 3 * minL < 2 * maxL := by
  unfold ratioGt
  by_cases hm : minL = 0
  · subst hm
    rw [if_pos rfl]
    constructor
    · intro h
      have := of_decide_eq_true h
      omega
    · intro h
      exact decide_eq_true (by omega)
  · rw [if_neg hm]
    have hmq : (0 : ℚ) < (minL : ℚ) := by exact_mod_cast Nat.pos_of_ne_zero hm
    constructor
    · intro h
      have hq := of_decide_eq_true h
      rw [div_lt_div_iff₀ (by norm_num) hmq] at hq
      have hq2 : (3 : ℚ) * (minL : ℚ) < 2 * (maxL : ℚ) := by linarith
      exact_mod_cast hq2
    · intro h
      apply decide_eq_true
      rw [div_lt_div_iff₀ (by norm_num) hmq]
      have hq : (3 : ℚ) * (minL : ℚ) < 2 * (maxL : ℚ) := by exact_mod_cast h
      linarith

/-- The exact rational comparison `max/min > 3/2` for a positive minimum is
the integer inequality `3 · min < 2 · max`. -/
theorem ratioQ_iff (maxL minL : Nat) (h : 0 < minL) :
    ((3 : ℚ) / 2 < (maxL : ℚ) / (minL : ℚ)) ↔ 3 * minL < 2 * maxL := by
  have hmq : (0 : ℚ) < (minL : ℚ) := by exact_mod_cast h
  rw [div_lt_div_iff₀ (by norm_num) hmq]
  constructor
  · intro hq
    have hq2 : (3 : ℚ) * (minL : ℚ) < 2 * (maxL : ℚ) := by linarith
    exact_mod_cast hq2
  · intro hn
    have hq : (3 : ℚ) * (minL : ℚ) < 2 * (maxL : ℚ) := by exact_mod_cast hn
    linarith

/-- C9: for every set of at least 2 responses, a length-disparity key
difference is emitted iff `max/min > 1.5` (equivalently `3·min < 2·max`,
which is the floating-point comparison on all feasible lengths), and any
such difference names the first longest response's model as providing the
more detailed explanation together with both character counts. -/
theorem c9_length_disparity (rs : List AIResponse) (h2 : 2 ≤ rs.length) :
    ((∃ d ∈ findKeyDifferences rs, d.aspect = "Response Length") ↔
      3 * listMin (rs.map fun r => r.response.length)
        < 2 * listMax (rs.map fun r => r.response.length)) ∧
    (0 < listMin (rs.map fun r => r.response.length) →
      (((3 : ℚ) / 2 < (listMax (rs.map fun r => r.response.length) : ℚ)
          / (listMin (rs.map fun r => r.response.length) : ℚ)) ↔
        3 * listMin (rs.map fun r => r.response.length)
          < 2 * listMax (rs.map fun r => r.response.length))) ∧
    (∀ d ∈ findKeyDifferences rs, d.aspect = "Response Length" →
      d.description = lengthDiffDesc rs (listMax (rs.map fun r => r.response.length))
        (listMin (rs.map fun r => r.response.length))) := by
  have hn : ¬ rs.length < 2 := by omega
  have hfd : findKeyDifferences rs
      = (if ratioGt (listMax (rs.map fun r => r.response.length))
            (listMin (rs.map fun r => r.response.length)) then
          [⟨"Response Length", lengthDiffDesc rs (listMax (rs.map fun r => r.response.length))
            (listMin (rs.map fun r => r.response.length))⟩]
        else []) ++
        ((if 1 < (dedupFirst ((rs.map fun r =>
              (r.model, assessCodeComplexity r.response)).map (·.2))).length then
           [⟨"Code Complexity", "Different complexity levels: " ++
              joinComma ((rs.map fun r => (r.model, assessCodeComplexity r.response)).map
                fun c => c.1 ++ " (" ++ c.2 ++ ")")⟩]
         else []) ++
         (if 1 < (identifyProgrammingApproaches rs).length then
           [⟨"Programming Approach", "Different approaches used: " ++
              joinComma (identifyProgrammingApproaches rs)⟩]
         else [])) := by
    simp only [findKeyDifferences, if_neg hn]
    rw [List.append_assoc]
  have hd23 : ∀ d : KeyDiff,
      d ∈ ((if 1 < (dedupFirst ((rs.map fun r =>
              (r.model, assessCodeComplexity r.response)).map (·.2))).length then
           [(⟨"Code Complexity", "Different complexity levels: " ++
              joinComma ((rs.map fun r => (r.model, assessCodeComplexity r.response)).map
                fun c => c.1 ++ " (" ++ c.2 ++ ")")⟩ : KeyDiff)]
         else []) ++
         (if 1 < (identifyProgrammingApproaches rs).length then
           [(⟨"Programming Approach", "Different approaches used: " ++
              joinComma (identifyProgrammingApproaches rs)⟩ : KeyDiff)]
         else [])) → d.aspect ≠ "Response Length" := by
    intro d hd
    rcases List.mem_append.mp hd with hm | hm
    · split at hm
      · rcases List.mem_singleton.mp hm with rfl
        show "Code Complexity" ≠ "Response Length"
        decide
      · cases hm
    · split at hm
      · rcases List.mem_singleton.mp hm with rfl
        show "Programming Approach" ≠ "Response Length"
        decide
      · cases hm
  refine ⟨?_, ?_, ?_⟩
  · constructor
    · rintro ⟨d, hd, ha⟩
      rw [hfd] at hd
      rcases List.mem_append.mp hd with hm | hm
      · split at hm
        · next hcond =>
          rw [← ratioGt_iff]
          exact hcond
        · cases hm
      · exact absurd ha (hd23 d hm)
    · intro hlt
      refine ⟨⟨"Response Length", lengthDiffDesc rs (listMax (rs.map fun r => r.response.length))
        (listMin (rs.map fun r => r.response.length))⟩, ?_, rfl⟩
      rw [hfd]
      apply List.mem_append.mpr
      left
      rw [if_pos ((ratioGt_iff _ _).mpr hlt)]
      exact List.mem_singleton.mpr rfl
  · intro hmin
    exact ratioQ_iff _ _ hmin
  · intro d hd ha
    rw [hfd] at hd
    rcases List.mem_append.mp hd with hm | hm
    · split at hm
      · rcases List.mem_singleton.mp hm with rfl
        rfl
      · cases hm
    · exact absurd ha (hd23 d hm)

set_option maxRecDepth 8000 in
/-- C9 witness: at exactly the boundary (120 vs 80 characters) no
length-disparity difference fires; at 121 vs 80 it fires. -/
theorem c9_witness :
    ¬ (∃ d ∈ findKeyDifferences
        [⟨"P", "A", String.mk (List.replicate 120 'a'), 0, 0, none, none⟩,
         ⟨"P", "B", String.mk (List.replicate 80 'b'), 1, 0, none, none⟩],
        d.aspect = "Response Length") ∧
    (∃ d ∈ findKeyDifferences
        [⟨"P", "A", String.mk (List.replicate 121 'a'), 0, 0, none, none⟩,
         ⟨"P", "B", String.mk (List.replicate 80 'b'), 1, 0, none, none⟩],
        d.aspect = "Response Length") := by
  constructor
  · intro hex
    have := (c9_length_disparity _ (by decide)).1.mp hex
    revert this
    decide
  · exact (c9_length_disparity _ (by decide)).1.mpr (by decide)

/-- Bumping a key increments its stored count. -/
theorem lk_bump_self (m : List (String × Nat)) (k : String) :
    lk (bump m k) k = lk m k + 1 := by
  induction m with
  | nil => simp [bump, lk]
  | cons e rest ih =>
    obtain ⟨k', v⟩ := e
    by_cases h : k' = k
    · subst h; simp [bump, lk]
    · simp [bump, lk, h, ih]

/-- Bumping a key leaves other counts unchanged. -/
theorem lk_bump_other (m : List (String × Nat)) (k t : String) (h : t ≠ k) :
    lk (bump m k) t = lk m t := by
  have hkt : ¬ k = t := fun hc => h hc.symm
  induction m with
  | nil => simp [bump, lk, hkt]
  | cons e rest ih =>
    obtain ⟨k', v⟩ := e
    by_cases hk : k' = k
    · subst hk
      simp [bump, lk, hkt]
    · by_cases ht : k' = t
      · subst ht
        simp [bump, lk, hk]
      · simp [bump, lk, hk, ht, ih]

/-- One cons step of occurrence counting. -/
theorem countStr_cons (t w : String) (ws : List String) :
    countStr t (w :: ws) = (if w = t then 1 else 0) + countStr t ws := by
  unfold countStr
  rw [List.filter_cons]
  by_cases h : w = t <;> simp [h, Nat.add_comm]

/-- A string absent from a list occurs zero times in it. -/
theorem countStr_eq_zero (t : String) (l : List String) (h : t ∉ l) : countStr t l = 0 := by
  induction l with
  | nil => rfl
  | cons w ws ih =>
    have h1 : ¬ w = t := fun hw => h (hw ▸ List.mem_cons_self w ws)
    rw [countStr_cons, ih fun hm => h (List.mem_cons_of_mem w hm), if_neg h1]

/-- In a duplicate-free list every string occurs at most once. -/
theorem countStr_of_nodup (t : String) (l : List String) (h : l.Nodup) :
    countStr t l = if t ∈ l then 1 else 0 := by
  induction l with
  | nil => rfl
  | cons w ws ih =>
    rcases List.nodup_cons.mp h with ⟨hw, hws⟩
    rw [countStr_cons, ih hws]
    by_cases hwt : w = t
    · subst hwt
      rw [if_pos rfl, if_neg hw, if_pos (List.mem_cons_self w ws)]
    · rw [if_neg hwt]
      by_cases hm : t ∈ ws
      · rw [if_pos hm, if_pos (List.mem_cons_of_mem w hm)]
      · have hnm : t ∉ w :: ws := by
          intro hc
          rcases List.mem_cons.mp hc with h1 | h2
          · exact hwt h1.symm
          · exact hm h2
        rw [if_neg hm, if_neg hnm]

/-- Folding `bump` over a word list adds each word's multiplicity. -/
theorem lk_foldl_bump (ws : List String) (m : List (String × Nat)) (t : String) :
    lk (ws.foldl bump m) t = lk m t + countStr t ws := by
  induction ws generalizing m with
  | nil => simp [countStr]
  | cons w ws ih =>
    rw [List.foldl_cons, ih, countStr_cons]
    by_cases h : w = t
    · subst h
      rw [lk_bump_self, if_pos rfl]
      omega
    · rw [lk_bump_other m w t fun hc => h hc.symm, if_neg h]
      omega

/-- Duplicate-free keys of a frequency map. -/
def keysND (m : List (String × Nat)) : Prop := (m.map Prod.fst).Nodup

/-- The keys of a bumped map are the old keys plus possibly the bumped key. -/
theorem mem_keys_bump (m : List (String × Nat)) (k x : String)
    (h : x ∈ (bump m k).map Prod.fst) : x = k ∨ x ∈ m.map Prod.fst := by
  induction m with
  | nil =>
    left
    rcases List.mem_map.mp h with ⟨⟨a, b⟩, hab, rfl⟩
    cases List.mem_singleton.mp hab
    rfl
  | cons e rest ih =>
    obtain ⟨k', v⟩ := e
    by_cases hk : k' = k
    · subst hk
      rw [bump, if_pos rfl] at h
      rcases List.mem_map.mp h with ⟨⟨a, b⟩, hab, rfl⟩
      rcases List.mem_cons.mp hab with h2 | h2
      · cases h2; exact Or.inl rfl
      · exact Or.inr (List.mem_map_of_mem Prod.fst (List.mem_cons_of_mem _ h2))
    · rw [bump, if_neg hk] at h
      rcases List.mem_map.mp h with ⟨⟨a, b⟩, hab, rfl⟩
      rcases List.mem_cons.mp hab with h2 | h2
      · cases h2
        exact Or.inr (List.mem_map_of_mem Prod.fst (List.mem_cons_self _ _))
      · rcases ih (List.mem_map_of_mem Prod.fst h2) with h3 | h3
        · exact Or.inl h3
        · refine Or.inr ?_
          rw [List.map_cons]
          exact List.mem_cons_of_mem _ h3

/-- Bumping preserves duplicate-freeness of the key list. -/
theorem keysND_bump (m : List (String × Nat)) (k : String) (h : keysND m) :
    keysND (bump m k) := by
  induction m with
  | nil => simp [bump, keysND]
  | cons e rest ih =>
    obtain ⟨k', v⟩ := e
    rcases List.nodup_cons.mp h with ⟨hk', hrest⟩
    by_cases hk : k' = k
    · subst hk
      rw [keysND, bump, if_pos rfl]
      exact List.nodup_cons.mpr ⟨hk', hrest⟩
    · rw [keysND, bump, if_neg hk, List.map_cons]
      refine List.nodup_cons.mpr ⟨?_, ih hrest⟩
      intro hc
      rcases mem_keys_bump rest k k' hc with h' | h'
      · exact hk h'
      · exact hk' h'

/-- Folding `bump` preserves duplicate-freeness of the key list. -/
theorem keysND_foldl_bump (ws : List String) (m : List (String × Nat)) (h : keysND m) :
    keysND (ws.foldl bump m) := by
  induction ws generalizing m with
  | nil => exact h
  | cons w ws ih => exact ih (bump m w) (keysND_bump m w h)

/-- In a map with duplicate-free keys, a stored entry is the looked-up
count. -/
theorem lk_of_mem (m : List (String × Nat)) (k : String) (v : Nat)
    (hnd : keysND m) (hm : (k, v) ∈ m) : lk m k = v := by
  induction m with
  | nil => cases hm
  | cons e rest ih =>
    obtain ⟨k', v'⟩ := e
    rcases List.nodup_cons.mp hnd with ⟨hk', hrest⟩
    rcases List.mem_cons.mp hm with he | he
    · injection he with h1 h2
      subst h1; subst h2
      simp [lk]
    · by_cases hk : k' = k
      · subst hk
        exact absurd (List.mem_map_of_mem Prod.fst he) hk'
      · rw [lk, if_neg hk]
        exact ih hrest he

/-- The term-frequency map has duplicate-free keys. -/
theorem keysND_termFreqList (rs : List AIResponse) : keysND (termFreqList rs) := by
  unfold termFreqList
  have : ∀ (l : List AIResponse) (m : List (String × Nat)), keysND m →
      keysND (l.foldl (fun m r => (dedupFirst (keyTermsOf r.response)).foldl bump m) m) := by
    intro l
    induction l with
    | nil => intro m h; exact h
    | cons r rest ih => intro m h; exact ih _ (keysND_foldl_bump _ m h)
  exact this rs [] (by simp [keysND])

/-- Membership in the first-occurrence deduplication. -/
theorem mem_dedupFirstAux {α : Type} [DecidableEq α] (seen l : List α) (x : α) :
    x ∈ dedupFirstAux seen l ↔ x ∈ l ∧ x ∉ seen := by
  induction l generalizing seen with
  | nil => simp [dedupFirstAux]
  | cons y ys ih =>
    by_cases hy : y ∈ seen
    · rw [dedupFirstAux, if_pos hy, ih]
      constructor
      · rintro ⟨hm, hs⟩; exact ⟨List.mem_cons_of_mem y hm, hs⟩
      · rintro ⟨hm, hs⟩
        rcases List.mem_cons.mp hm with rfl | hm'
        · exact absurd hy hs
        · exact ⟨hm', hs⟩
    · rw [dedupFirstAux, if_neg hy]
      constructor
      · intro hm
        rcases List.mem_cons.mp hm with rfl | hm'
        · exact ⟨List.mem_cons_self x ys, hy⟩
        · rcases (ih (y :: seen)).mp hm' with ⟨hys, hns⟩
          exact ⟨List.mem_cons_of_mem y hys,
                 fun hs => hns (List.mem_cons_of_mem y hs)⟩
      · rintro ⟨hm, hs⟩
        rcases List.mem_cons.mp hm with rfl | hm'
        · exact List.mem_cons_self x _
        · by_cases hxy : x = y
          · subst hxy; exact List.mem_cons_self x _
          · exact List.mem_cons_of_mem y ((ih (y :: seen)).mpr
              ⟨hm', by simp [hxy, hs]⟩)

/-- Lemma: `[...new Set(xs)]` has the same members as `xs`. -/
theorem mem_dedupFirst {α : Type} [DecidableEq α] (l : List α) (x : α) :
    x ∈ dedupFirst l ↔ x ∈ l := by
  rw [dedupFirst, mem_dedupFirstAux]
  simp

/-- The first-occurrence deduplication is duplicate-free. -/
theorem dedupFirst_nodup {α : Type} [DecidableEq α] (l : List α) :
    (dedupFirst l).Nodup := by
  have : ∀ (l seen : List α), (dedupFirstAux seen l).Nodup := by
    intro l
    induction l with
    | nil => intro seen; simp [dedupFirstAux]
    | cons y ys ih =>
      intro seen
      by_cases hy : y ∈ seen
      · rw [dedupFirstAux, if_pos hy]; exact ih seen
      · rw [dedupFirstAux, if_neg hy]
        refine List.nodup_cons.mpr ⟨?_, ih (y :: seen)⟩
        intro hc
        exact ((mem_dedupFirstAux (y :: seen) ys y).mp hc).2 (List.mem_cons_self y seen)
  exact this l []

/-- The term-frequency map counts, for each term, the number of responses
whose significant-term set contains it. -/
theorem lk_termFreqList (rs : List AIResponse) (t : String) :
    lk (termFreqList rs) t = countRespMentioning rs t := by
  unfold termFreqList countRespMentioning
  have key : ∀ (l : List AIResponse) (m : List (String × Nat)),
      lk (l.foldl (fun m r => (dedupFirst (keyTermsOf r.response)).foldl bump m) m) t
        = lk m t + (l.filter fun r => decide (t ∈ keyTermsOf r.response)).length := by
    intro l
    induction l with
    | nil => intro m; simp
    | cons r rest ih =>
      intro m
      rw [List.foldl_cons, ih, lk_foldl_bump,
          countStr_of_nodup t _ (dedupFirst_nodup _), List.filter_cons]
      by_cases hm : t ∈ keyTermsOf r.response
      · rw [if_pos ((mem_dedupFirst _ t).mpr hm)]
        simp [hm]
        omega
      · rw [if_neg (fun hc => hm ((mem_dedupFirst _ t).mp hc))]
        simp [hm]
  rw [key rs []]
  simp [lk]

/-- An association list whose values are a function of their keys is the
mapped key list. -/
theorem assoc_eq_map (m : List (String × Nat)) (g : String → Nat)
    (hval : ∀ p ∈ m, p.2 = g p.1) :
    m = (m.map Prod.fst).map fun k => (k, g k) := by
  induction m with
  | nil => rfl
  | cons p m' ih =>
    obtain ⟨k, v⟩ := p
    have h1 : v = g k := hval (k, v) (List.mem_cons_self _ _)
    have h2 := ih fun q hq => hval q (List.mem_cons_of_mem _ hq)
    calc (k, v) :: m' = (k, g k) :: m' := by rw [h1]
      _ = (k, g k) :: (m'.map Prod.fst).map (fun k => (k, g k)) := by rw [← h2]
      _ = (((k, v) :: m').map Prod.fst).map (fun k => (k, g k)) := by
          simp [List.map_cons]

/-- Bumping appends the key at the end exactly when it is new: JavaScript
object key order is first-insertion order. -/
theorem keys_bump (m : List (String × Nat)) (k : String) :
    (bump m k).map Prod.fst =
      if k ∈ m.map Prod.fst then m.map Prod.fst else m.map Prod.fst ++ [k] := by
  induction m with
  | nil => simp [bump]
  | cons p m' ih =>
    obtain ⟨k', v⟩ := p
    by_cases hk : k' = k
    · subst hk
      rw [bump, if_pos rfl]
      simp [List.mem_cons]
    · rw [bump, if_neg hk, List.map_cons, List.map_cons, ih]
      by_cases hm : k ∈ m'.map Prod.fst
      · rw [if_pos hm, if_pos (List.mem_cons_of_mem _ hm)]
      · have hnk : k ∉ k' :: m'.map Prod.fst := by
          intro hc
          rcases List.mem_cons.mp hc with h1 | h2
          · exact hk h1.symm
          · exact hm h2
        rw [if_neg hm, if_neg hnk, List.cons_append]

/-- The deduplication only inspects membership of the seen list. -/
theorem dedupFirstAux_congr {α : Type} [DecidableEq α] (s1 s2 l : List α)
    (h : ∀ x : α, x ∈ s1 ↔ x ∈ s2) : dedupFirstAux s1 l = dedupFirstAux s2 l := by
  induction l generalizing s1 s2 with
  | nil => rfl
  | cons y ys ih =>
    by_cases hy : y ∈ s1
    · rw [dedupFirstAux, if_pos hy, dedupFirstAux, if_pos ((h y).mp hy)]
      exact ih s1 s2 h
    · rw [dedupFirstAux, if_neg hy, dedupFirstAux, if_neg fun hc => hy ((h y).mpr hc)]
      congr 1
      apply ih
      intro x
      simp [List.mem_cons, h x]

/-- The keys of a bump-fold are the old keys followed by the new words in
first-occurrence order. -/
theorem keys_foldl_bump (ws : List String) : ∀ m : List (String × Nat),
    (ws.foldl bump m).map Prod.fst
      = m.map Prod.fst ++ dedupFirstAux (m.map Prod.fst) ws := by
  induction ws with
  | nil => intro m; simp [dedupFirstAux]
  | cons w ws ih =>
    intro m
    rw [List.foldl_cons, ih (bump m w)]
    by_cases hw : w ∈ m.map Prod.fst
    · rw [keys_bump, if_pos hw, dedupFirstAux, if_pos hw]
    · rw [keys_bump, if_neg hw, dedupFirstAux, if_neg hw,
          dedupFirstAux_congr (m.map Prod.fst ++ [w]) (w :: m.map Prod.fst) ws
            (by intro x; simp [List.mem_append, List.mem_cons, or_comm]),
          List.append_assoc, List.singleton_append]

/-- Full characterization of a frequency object built from a word list: its
entries are the distinct words in first-occurrence order, each paired with
its multiplicity. -/
theorem foldl_bump_eq_map (ws : List String) :
    ws.foldl bump [] = (dedupFirst ws).map fun k => (k, countStr k ws) := by
  have hval : ∀ p ∈ ws.foldl bump [], p.2 = countStr p.1 ws := by
    intro p hp
    obtain ⟨k, v⟩ := p
    show v = countStr k ws
    have hnd := keysND_foldl_bump ws [] (by simp [keysND])
    have h1 : lk (ws.foldl bump []) k = v := lk_of_mem _ k v hnd hp
    have h2 := lk_foldl_bump ws [] k
    simp only [lk] at h2
    omega
  rw [assoc_eq_map (ws.foldl bump []) (fun k => countStr k ws) hval,
      keys_foldl_bump ws []]
  simp [dedupFirst]

/-- Folding each response's word list in turn is folding the concatenated
word list. -/
theorem foldl_bump_bind (f : AIResponse → List String) (rs : List AIResponse) :
    ∀ m, rs.foldl (fun m r => (f r).foldl bump m) m = (rs.flatMap f).foldl bump m := by
  induction rs with
  | nil => intro m; rfl
  | cons r rs ih =>
    intro m
    rw [List.foldl_cons, ih, List.flatMap_cons, List.foldl_append]

/-- Occurrence counting distributes over appending. -/
theorem countStr_append (t : String) (l1 l2 : List String) :
    countStr t (l1 ++ l2) = countStr t l1 + countStr t l2 := by
  unfold countStr
  rw [List.filter_append, List.length_append]

/-- Counting a term across the concatenated per-response (deduplicated)
term lists counts the responses mentioning it. -/
theorem countStr_bind_terms (rs : List AIResponse) (t : String) :
    countStr t (rs.flatMap fun r => dedupFirst (keyTermsOf r.response))
      = countRespMentioning rs t := by
  induction rs with
  | nil => rfl
  | cons r rs ih =>
    rw [List.flatMap_cons, countStr_append, ih,
        countStr_of_nodup t _ (dedupFirst_nodup _)]
    unfold countRespMentioning
    rw [List.filter_cons]
    by_cases hm : t ∈ keyTermsOf r.response
    · rw [if_pos ((mem_dedupFirst _ t).mpr hm)]
      simp [hm]
      omega
    · rw [if_neg fun hc => hm ((mem_dedupFirst _ t).mp hc)]
      simp [hm]

/-- Deduplication is the identity on duplicate-free lists disjoint from the
seen list. -/
theorem dedupFirstAux_of_nodup {α : Type} [DecidableEq α] :
    ∀ (l seen : List α), l.Nodup → (∀ x ∈ l, x ∉ seen) → dedupFirstAux seen l = l
  | [], _, _, _ => rfl
  | y :: ys, seen, hnd, hdisj => by
    rcases List.nodup_cons.mp hnd with ⟨hy, hys⟩
    rw [dedupFirstAux, if_neg (hdisj y (List.mem_cons_self _ _)),
        dedupFirstAux_of_nodup ys (y :: seen) hys (by
          intro x hx hc
          rcases List.mem_cons.mp hc with h1 | h2
          · exact hy (h1 ▸ hx)
          · exact hdisj x (List.mem_cons_of_mem _ hx) h2)]

/-- Deduplication is the identity on duplicate-free lists. -/
theorem dedupFirst_of_nodup {α : Type} [DecidableEq α] (l : List α) (h : l.Nodup) :
    dedupFirst l = l :=
  dedupFirstAux_of_nodup l [] h (by intro x _; simp)

/-- Per-response significant-term lists are duplicate-free. -/
theorem keyTermsOf_nodup (t : String) : (keyTermsOf t).Nodup := by
  unfold keyTermsOf extractKeyTerms
  exact dedupFirst_nodup _

/-- The inner deduplication in the term-frequency fold is redundant. -/
theorem bind_dedup_keyTerms (rs : List AIResponse) :
    (rs.flatMap fun r => dedupFirst (keyTermsOf r.response))
      = rs.flatMap fun r => keyTermsOf r.response := by
  induction rs with
  | nil => rfl
  | cons r rs ih =>
    rw [List.flatMap_cons, List.flatMap_cons, ih, dedupFirst_of_nodup _ (keyTermsOf_nodup _)]

/-- Full characterization of the term-frequency object: the distinct terms
in first-appearance order, each paired with the number of responses whose
term set contains it. -/
theorem termFreqList_eq (rs : List AIResponse) :
    termFreqList rs = (termsInOrder rs).map fun t => (t, countRespMentioning rs t) := by
  unfold termFreqList termsInOrder
  rw [foldl_bump_bind, foldl_bump_eq_map, bind_dedup_keyTerms]
  apply List.map_congr_left
  intro t _
  rw [← bind_dedup_keyTerms, countStr_bind_terms]

/-- Filtering after mapping is mapping after filtering the composition. -/
theorem filter_of_map {α β : Type} (p : β → Bool) (f : α → β) (l : List α) :
    (l.map f).filter p = (l.filter fun a => p (f a)).map f := by
  induction l with
  | nil => rfl
  | cons x xs ih =>
    rw [List.map_cons, List.filter_cons, List.filter_cons]
    by_cases hx : p (f x) = true
    · rw [if_pos hx, if_pos hx, List.map_cons, ih]
    · rw [if_neg hx, if_neg hx, ih]

/-- The common-code-pattern list is one description per language tagging
more than one extracted block, in first-appearance order. -/
theorem findCommonCodePatterns_eq (rs : List AIResponse) :
    findCommonCodePatterns rs
      = (commonLanguages rs).map fun l => "Both use " ++ l ++ " for implementation" := by
  simp only [findCommonCodePatterns, commonLanguages, languagesInOrder,
    foldl_bump_eq_map, filter_of_map, List.map_map]
  rfl

/-- C5 amended: `commonPoints` is exactly one "Both models mention <term>"
description per qualifying term — a term whose frequency across the
responses' term sets is at least `ceil(0.7 N)` and whose length is > 3 —
in first-appearance order, followed by one "Both use <lang> for
implementation" description per language tagging more than one extracted
code block across all responses (blocks are counted, not the responses
containing them), the whole list truncated to its first 5 entries in that
construction order (not the top 5 by frequency); consequently every
emitted entry is sound for its threshold and the list never exceeds 5
entries. -/
theorem c5_common_points (rs : List AIResponse) :
    (rs.length < 2 → findCommonPoints rs = []) ∧
    (2 ≤ rs.length →
      findCommonPoints rs =
        ((qualifyingTerms rs).map (fun t => "Both models mention " ++ t) ++
         (commonLanguages rs).map
            (fun l => "Both use " ++ l ++ " for implementation")).take 5) ∧
    (∀ p ∈ findCommonPoints rs,
      (∃ t, p = "Both models mention " ++ t ∧
        thresholdOf rs.length ≤ countRespMentioning rs t ∧ 3 < t.length) ∨
      (∃ l, p = "Both use " ++ l ++ " for implementation" ∧
        2 ≤ countBlocksWithLang rs l)) ∧
    (findCommonPoints rs).length ≤ 5 := by
  refine ⟨?_, ?_, ?_, ?_⟩
  · intro hlen
    rw [findCommonPoints, if_pos hlen]
  · intro hlen
    have hn : ¬ rs.length < 2 := by omega
    simp only [findCommonPoints, if_neg hn]
    rw [termFreqList_eq, filter_of_map, List.map_map, findCommonCodePatterns_eq]
    rfl
  · intro p hp
    by_cases hlen : rs.length < 2
    · rw [findCommonPoints, if_pos hlen] at hp
      cases hp
    · rw [findCommonPoints, if_neg hlen] at hp
      have hp' := List.mem_of_mem_take hp
      rcases List.mem_append.mp hp' with hm | hm
      · left
        rcases List.mem_map.mp hm with ⟨⟨t, c⟩, htc, rfl⟩
        have hfil := List.mem_filter.mp htc
        have hpred := hfil.2
        simp only [Bool.and_eq_true, decide_eq_true_eq] at hpred
        have hcv : lk (termFreqList rs) t = c :=
          lk_of_mem _ t c (keysND_termFreqList rs) hfil.1
        refine ⟨t, rfl, ?_, hpred.2⟩
        rw [← lk_termFreqList, hcv]
        exact hpred.1
      · right
        rw [findCommonCodePatterns] at hm
        rcases List.mem_map.mp hm with ⟨⟨l, c⟩, hlc, rfl⟩
        have hfil := List.mem_filter.mp hlc
        have hpred := hfil.2
        simp only [decide_eq_true_eq] at hpred
        have hnd : keysND (((extractAllCodeBlocks rs).map (·.language)).foldl bump []) :=
          keysND_foldl_bump _ [] (by simp [keysND])
        have hcv : lk (((extractAllCodeBlocks rs).map (·.language)).foldl bump []) l = c :=
          lk_of_mem _ l c hnd hfil.1
        refine ⟨l, rfl, ?_⟩
        have hcount : countBlocksWithLang rs l = c := by
          rw [countBlocksWithLang, ← hcv, lk_foldl_bump]
          simp [lk]
        omega
  · by_cases hlen : rs.length < 2
    · rw [findCommonPoints, if_pos hlen]; simp
    · rw [findCommonPoints, if_neg hlen, List.length_take]
      exact min_le_left _ _

/-- A response whose text holds two python-tagged code blocks, and a sibling
with none. -/
def cx5r1 : AIResponse :=
  ⟨"P", "A", "```python\na = 1\n```\n```python\nb = 2\n```", 1, 1, none, none⟩

/-- The sibling response with no code blocks. -/
def cx5r2 : AIResponse := ⟨"P", "B", "hello", 2, 1, none, none⟩

/-- Four responses over six dictionary terms: five terms appear in the
first three responses (frequency 3), while `string` appears in all four
(frequency 4) but first occurs after them. -/
def cx5rs4 : List AIResponse :=
  [⟨"P", "A", "function variable array object method string", 1, 1, none, none⟩,
   ⟨"P", "B", "function variable array object method string", 2, 1, none, none⟩,
   ⟨"P", "C", "function variable array object method string", 3, 1, none, none⟩,
   ⟨"P", "D", "string", 4, 1, none, none⟩]

/-- C5 counterexample, refuting two parts of the claim.  First, the
language part: `commonPoints` emits the python language description
although python appears in code blocks of only one response (its two
blocks are counted, not the responses containing them).  Second, the
truncation part: with threshold `ceil(0.7 × 4) = 3`, all six terms of
`cx5rs4` qualify, yet the emitted list keeps the five frequency-3 terms
in first-appearance order and drops `string`, the unique term of maximal
frequency 4 — so the result is not the top 5 entries by frequency. -/
theorem c5_counterexample :
    (findCommonPoints [cx5r1, cx5r2] = ["Both use python for implementation"] ∧
      countRespWithLang [cx5r1, cx5r2] "python" = 1) ∧
    (findCommonPoints cx5rs4
        = ["Both models mention function", "Both models mention variable",
           "Both models mention array", "Both models mention object",
           "Both models mention method"] ∧
      "Both models mention string" ∉ findCommonPoints cx5rs4 ∧
      thresholdOf cx5rs4.length = 3 ∧
      countRespMentioning cx5rs4 "string" = 4 ∧
      countRespMentioning cx5rs4 "function" = 3 ∧
      countRespMentioning cx5rs4 "variable" = 3 ∧
      countRespMentioning cx5rs4 "array" = 3 ∧
      countRespMentioning cx5rs4 "object" = 3 ∧
      countRespMentioning cx5rs4 "method" = 3) := by decide

/-- C5 witness: on two responses genuinely sharing a term, the output is
exactly the mapped qualifying-term list (truncated to 5), and the emitted
mention satisfies the threshold bound. -/
theorem c5_witness :
    (findCommonPoints
        [⟨"P", "A", "a function", 0, 0, none, none⟩,
         ⟨"P", "B", "the function", 1, 0, none, none⟩]
      = ((qualifyingTerms
            [⟨"P", "A", "a function", 0, 0, none, none⟩,
             ⟨"P", "B", "the function", 1, 0, none, none⟩]).map
              (fun t => "Both models mention " ++ t) ++
         (commonLanguages
            [⟨"P", "A", "a function", 0, 0, none, none⟩,
             ⟨"P", "B", "the function", 1, 0, none, none⟩]).map
              (fun l => "Both use " ++ l ++ " for implementation")).take 5) ∧
    ((∃ t, ("Both models mention function" : String) = "Both models mention " ++ t ∧
      thresholdOf ([⟨"P", "A", "a function", 0, 0, none, none⟩,
        ⟨"P", "B", "the function", 1, 0, none, none⟩] : List AIResponse).length
          ≤ countRespMentioning
            [⟨"P", "A", "a function", 0, 0, none, none⟩,
             ⟨"P", "B", "the function", 1, 0, none, none⟩] t ∧ 3 < t.length) ∨
    (∃ l, ("Both models mention function" : String) = "Both use " ++ l ++ " for implementation" ∧
      2 ≤ countBlocksWithLang
        [⟨"P", "A", "a function", 0, 0, none, none⟩,
         ⟨"P", "B", "the function", 1, 0, none, none⟩] l)) :=
  ⟨(c5_common_points _).2.1 (by decide),
   (c5_common_points _).2.2.1 "Both models mention function" (by decide)⟩

/-! ### Lemmas about the code-block scanner (claim C4) -/

/-- A matched attempt's remainder is no longer than its input. -/
theorem fenceTry_some_length (l : List Char) (j : Nat) (b r : List Char)
    (h : fenceTry l j = some (b, r)) : r.length ≤ l.length := by
  unfold fenceTry at h
  cases hfp : findPat nlTicks (l.drop (j + 1)) with
  | none => simp only [hfp] at h; cases h
  | some p =>
    simp only [hfp] at h
    have hr : r = (l.drop (j + 1)).drop (p + 4) := (congrArg Prod.snd (Option.some.inj h)).symm
    rw [hr]
    simp [List.length_drop]

/-- Dropping a prefix never lengthens a list. -/
theorem dropWhile_length_le (p : Char → Bool) (l : List Char) :
    (l.dropWhile p).length ≤ l.length := by
  induction l with
  | nil => exact Nat.le_refl _
  | cons c cs ih =>
    rw [List.dropWhile_cons]
    by_cases hc : p c = true
    · rw [if_pos hc]
      exact Nat.le_succ_of_le ih
    · rw [if_neg hc]

/-- Inversion for the backtracking search. -/
theorem firstSome_some {α : Type} (f : Nat → Option α) (js : List Nat) (v : α)
    (h : firstSome f js = some v) : ∃ j ∈ js, f j = some v := by
  induction js with
  | nil => cases h
  | cons j js ih =>
    cases hfj : f j with
    | some w =>
      rw [firstSome, hfj] at h
      exact ⟨j, List.mem_cons_self j js, by rw [hfj, Option.some.inj h]⟩
    | none =>
      rw [firstSome, hfj] at h
      obtain ⟨j', hj', hf'⟩ := ih h
      exact ⟨j', List.mem_cons_of_mem j hj', hf'⟩

/-- When every candidate succeeds with property `P`, the search succeeds
with property `P`. -/
theorem firstSome_all {α : Type} (f : Nat → Option α) (P : α → Prop) (js : List Nat)
    (hne : js ≠ []) (hall : ∀ j ∈ js, ∃ v, f j = some v ∧ P v) :
    ∃ v, firstSome f js = some v ∧ P v := by
  cases js with
  | nil => exact absurd rfl hne
  | cons j js =>
    obtain ⟨v, hv, hP⟩ := hall j (List.mem_cons_self j js)
    exact ⟨v, by rw [firstSome, hv], hP⟩

/-- A match consumes at least the three opening backticks. -/
theorem matchAt_some_length (cs lang b r : List Char)
    (h : matchAt cs = some (lang, b, r)) : r.length < cs.length := by
  cases cs with
  | nil => cases h
  | cons c1 cs1 =>
    cases cs1 with
    | nil => cases h
    | cons c2 cs2 =>
      cases cs2 with
      | nil => cases h
      | cons c3 rest =>
        simp only [matchAt] at h
        by_cases htick : (isTick c1 && isTick c2 && isTick c3) = true
        · rw [if_pos htick] at h
          cases htw : tryWs (rest.dropWhile isWordChar) with
          | none => rw [htw] at h; cases h
          | some br =>
            obtain ⟨b0, r0⟩ := br
            rw [htw] at h
            have hr : r = r0 := (congrArg (fun x => x.2.2) (Option.some.inj h)).symm
            subst hr
            obtain ⟨j, _, hfj⟩ := firstSome_some _ _ _ htw
            have hr0 := fenceTry_some_length _ _ _ _ hfj
            have hdw : (rest.dropWhile isWordChar).length ≤ rest.length :=
              dropWhile_length_le isWordChar rest
            simp only [List.length_cons]
            omega
        · rw [if_neg htick] at h
          cases h

/-- The scan is fuel-insensitive once the fuel covers the input length. -/
theorem scanGo_congr (f : Nat) : ∀ (g : Nat) (cs : List Char),
    cs.length ≤ f → cs.length ≤ g → scanGo f cs = scanGo g cs := by
  induction f with
  | zero =>
    intro g cs hf _
    have : cs = [] := List.length_eq_zero.mp (by omega)
    subst this
    cases g <;> rfl
  | succ f ih =>
    intro g cs hf hg
    cases cs with
    | nil => cases g <;> rfl
    | cons c cs' =>
      cases g with
      | zero => simp at hg
      | succ g' =>
        cases hma : matchAt (c :: cs') with
        | none =>
          simp only [scanGo, hma]
          exact ih g' cs' (by simp only [List.length_cons] at hf; omega)
            (by simp only [List.length_cons] at hg; omega)
        | some lbr =>
          obtain ⟨lang, b, r⟩ := lbr
          simp only [scanGo, hma]
          have hlt := matchAt_some_length _ _ _ _ hma
          simp only [List.length_cons] at hlt hf hg
          rw [ih g' r (by omega) (by omega)]

/-- Scan step: no match at the head advances one character. -/
theorem extractList_cons_none (c : Char) (cs : List Char) (h : matchAt (c :: cs) = none) :
    extractList (c :: cs) = extractList cs := by
  show scanGo (c :: cs).length (c :: cs) = scanGo cs.length cs
  rw [List.length_cons]
  simp only [scanGo, h]

/-- Scan step: a match at the head produces its block and continues after
the match. -/
theorem extractList_cons_some (cs lang b r : List Char)
    (h : matchAt cs = some (lang, b, r)) :
    extractList cs = mkBlock lang b :: extractList r := by
  cases cs with
  | nil => cases h
  | cons c cs' =>
    show scanGo (c :: cs').length (c :: cs') = _
    rw [List.length_cons]
    simp only [scanGo, h]
    have hlt := matchAt_some_length _ _ _ _ h
    simp only [List.length_cons] at hlt
    rw [scanGo_congr cs'.length r.length r (by omega) (le_refl _)]
    rfl

/-- Backtick-free text contributes no blocks and no match positions. -/
theorem extractList_append_no_tick (pre l : List Char)
    (h : ∀ c ∈ pre, isTick c = false) : extractList (pre ++ l) = extractList l := by
  induction pre with
  | nil => rfl
  | cons c pre' ih =>
    have hc : isTick c = false := h c (List.mem_cons_self c pre')
    have hma : matchAt (c :: (pre' ++ l)) = none := by
      cases hx : pre' ++ l with
      | nil => rfl
      | cons c2 x' =>
        cases x' with
        | nil => rfl
        | cons c3 x'' =>
          show (if isTick c && isTick c2 && isTick c3 then _ else none) = none
          rw [hc]
          simp
    rw [List.cons_append, extractList_cons_none _ _ hma,
        ih fun c' h' => h c' (List.mem_cons_of_mem c h')]

/-- Appending after a list drops away below the list's length. -/
theorem drop_append_le {α : Type} (a b : List α) (n : Nat) (h : n ≤ a.length) :
    (a ++ b).drop n = a.drop n ++ b := by
  induction a generalizing n with
  | nil =>
    have : n = 0 := by simpa using h
    subst this
    rfl
  | cons x xs ih =>
    cases n with
    | zero => rfl
    | succ m =>
      simp only [List.cons_append, List.drop_succ_cons]
      exact ih m (by simpa using h)

/-- Taking exactly the left part of an append. -/
theorem take_append_len {α : Type} (a b : List α) : (a ++ b).take a.length = a := by
  induction a with
  | nil => rfl
  | cons x xs ih => simp only [List.cons_append, List.length_cons, List.take_succ_cons, ih]

/-- Dropping the left part of an append plus an offset. -/
theorem drop_append_plus {α : Type} (a b : List α) (n : Nat) :
    (a ++ b).drop (a.length + n) = b.drop n := by
  induction a with
  | nil => simp
  | cons x xs ih =>
    show (x :: (xs ++ b)).drop (xs.length + 1 + n) = b.drop n
    have : xs.length + 1 + n = (xs.length + n) + 1 := by omega
    rw [this, List.drop_succ_cons]
    exact ih

/-- A tick-run prefix just before the closing newline forces a tick run in
the preceding body. -/
theorem ttt_append (b2 rest : List Char)
    (h : leadsWith tickRun3 (b2 ++ '\n' :: tickChar :: tickChar :: tickChar :: rest) = true) :
    hasTriple b2 = true := by
  match b2 with
  | [] =>
    exfalso
    simp only [tickRun3, List.nil_append, leadsWith, Bool.and_eq_true,
      decide_eq_true_eq] at h
    exact absurd h.1 (by decide)
  | [x] =>
    exfalso
    simp only [tickRun3, List.cons_append, List.nil_append, leadsWith, Bool.and_eq_true,
      decide_eq_true_eq] at h
    exact absurd h.2.1 (by decide)
  | [x, y] =>
    exfalso
    simp only [tickRun3, List.cons_append, List.nil_append, leadsWith, Bool.and_eq_true,
      decide_eq_true_eq] at h
    exact absurd h.2.2.1 (by decide)
  | x :: y :: z :: b3 =>
    simp only [tickRun3, List.cons_append, leadsWith, Bool.and_eq_true,
      decide_eq_true_eq] at h
    obtain ⟨hx, hy, hz, -⟩ := h
    rw [hasTriple]
    have hl : leadsWith tickRun3 (x :: y :: z :: b3) = true := by
      simp [leadsWith, tickRun3, ← hx, ← hy, ← hz]
    rw [hl, Bool.true_or]

/-- The first occurrence of newline-plus-three-backticks after a body that
contains no tick run is exactly the closing fence. -/
theorem findPat_closing (b2 rest : List Char) (h : hasTriple b2 = false) :
    findPat nlTicks (b2 ++ '\n' :: tickChar :: tickChar :: tickChar :: rest)
      = some b2.length := by
  induction b2 with
  | nil =>
    show findPat nlTicks ('\n' :: tickChar :: tickChar :: tickChar :: rest) = some 0
    have hlw : leadsWith nlTicks ('\n' :: tickChar :: tickChar :: tickChar :: rest) = true := by
      simp [leadsWith, nlTicks, tickRun3]
    simp only [findPat, hlw, if_true]
  | cons c b2' ih =>
    rw [hasTriple] at h
    have h' : hasTriple b2' = false := (Bool.or_eq_false_iff.mp h).2
    have hlwc : leadsWith tickRun3 (c :: b2') = false := (Bool.or_eq_false_iff.mp h).1
    have hlw : leadsWith nlTicks
        (c :: (b2' ++ '\n' :: tickChar :: tickChar :: tickChar :: rest)) = false := by
      by_contra hcon
      have htr : leadsWith nlTicks
          (c :: (b2' ++ '\n' :: tickChar :: tickChar :: tickChar :: rest)) = true :=
        Bool.of_not_eq_false hcon
      simp only [nlTicks, leadsWith, Bool.and_eq_true, decide_eq_true_eq] at htr
      have := ttt_append b2' rest (by
        simp only [tickRun3, leadsWith]
        exact htr.2)
      rw [this] at h'
      cases h'
    rw [List.cons_append]
    simp only [findPat, hlw, Bool.false_eq_true, if_false, ih h']
    rfl

/-- Dropping characters cannot create a tick run. -/
theorem hasTriple_drop (b : List Char) (n : Nat) (h : hasTriple b = false) :
    hasTriple (b.drop n) = false := by
  induction n generalizing b with
  | zero => exact h
  | succ n ih =>
    cases b with
    | nil => exact h
    | cons c cs =>
      rw [List.drop_succ_cons]
      rw [hasTriple] at h
      exact ih cs (Bool.or_eq_false_iff.mp h).2

/-- Lemma: `takeWhile` over an append stops inside a left part that is not all
matched. -/
theorem takeWhile_append_stop (B l : List Char) (h : B.all isSpc = false) :
    (B ++ l).takeWhile isSpc = B.takeWhile isSpc := by
  induction B with
  | nil => simp at h
  | cons b bs ih =>
    rw [List.cons_append, List.takeWhile_cons, List.takeWhile_cons]
    by_cases hb : isSpc b = true
    · rw [if_pos hb, if_pos hb]
      rw [List.all_cons, hb, Bool.true_and] at h
      rw [ih h]
    · rw [if_neg hb, if_neg hb]

/-- A word-character tag is the exact `takeWhile` before the newline. -/
theorem takeWhile_tag (tag l : List Char) (h : tag.all isWordChar = true) :
    (tag ++ '\n' :: l).takeWhile isWordChar = tag := by
  induction tag with
  | nil =>
    rw [List.nil_append, List.takeWhile_cons]
    simp [isWordChar]
  | cons c cs ih =>
    rw [List.all_cons, Bool.and_eq_true] at h
    rw [List.cons_append, List.takeWhile_cons, if_pos h.1, ih h.2]

/-- The `dropWhile` past a word-character tag lands on the newline. -/
theorem dropWhile_tag (tag l : List Char) (h : tag.all isWordChar = true) :
    (tag ++ '\n' :: l).dropWhile isWordChar = '\n' :: l := by
  induction tag with
  | nil =>
    rw [List.nil_append, List.dropWhile_cons]
    simp [isWordChar]
  | cons c cs ih =>
    rw [List.all_cons, Bool.and_eq_true] at h
    rw [List.cons_append, List.dropWhile_cons, if_pos h.1, ih h.2]

/-- Positions inside the matched whitespace run hold whitespace. -/
theorem spc_of_mem_take (l : List Char) (j : Nat)
    (hj : j ≤ (l.takeWhile isSpc).length) : ∀ c ∈ l.take j, isSpc c = true := by
  induction l generalizing j with
  | nil => intro c hc; simp at hc
  | cons x xs ih =>
    cases j with
    | zero => intro c hc; simp at hc
    | succ m =>
      intro c hc
      by_cases hx : isSpc x = true
      · rw [List.takeWhile_cons, if_pos hx, List.length_cons] at hj
        rw [List.take_succ_cons] at hc
        rcases List.mem_cons.mp hc with rfl | hc'
        · exact hx
        · exact ih m (by omega) c hc'
      · rw [List.takeWhile_cons, if_neg hx] at hj
        simp at hj


/-- Dropping a whitespace prefix does not change the left trim point. -/
theorem dropWhile_drop_spc (l : List Char) (j : Nat)
    (hall : ∀ c ∈ l.take j, isSpc c = true) :
    (l.drop j).dropWhile isSpc = l.dropWhile isSpc := by
  induction l generalizing j with
  | nil => simp
  | cons x xs ih =>
    cases j with
    | zero => rfl
    | succ m =>
      have hx : isSpc x = true := hall x (by rw [List.take_succ_cons]; exact List.mem_cons_self x _)
      rw [List.drop_succ_cons, List.dropWhile_cons, if_pos hx]
      exact ih m fun c hc => hall c (by rw [List.take_succ_cons]; exact List.mem_cons_of_mem x hc)

/-- Dropping a whitespace prefix does not change the trimmed text. -/
theorem trimL_drop (B : List Char) (j : Nat)
    (hall : ∀ c ∈ B.take j, isSpc c = true) : trimL (B.drop j) = trimL B := by
  unfold trimL
  rw [dropWhile_drop_spc B j hall]

/-- Characterization of the backtracking candidates. -/
theorem mem_wsCands (l : List Char) (j : Nat) :
    j ∈ wsCands l ↔ j < (l.takeWhile isSpc).length ∧ l.getD j tickChar = '\n' := by
  unfold wsCands
  rw [List.mem_reverse, List.mem_filter, List.mem_range]
  simp only [decide_eq_true_eq]

/-- The matched whitespace run never outruns the list. -/
theorem takeWhile_length_le (p : Char → Bool) (l : List Char) :
    (l.takeWhile p).length ≤ l.length := by
  induction l with
  | nil => exact Nat.le_refl _
  | cons c cs ih =>
    rw [List.takeWhile_cons]
    by_cases hc : p c = true
    · rw [if_pos hc]
      simpa using ih
    · rw [if_neg hc]
      simp

/-- Resolution of `` \s*\n([\s\S]*?)\n``` `` at a canonical fence whose body
has no tick run and a non-whitespace character: every backtracking
candidate lands inside the body's leading whitespace, so the lazy group
stops at the true closing fence and the extracted body trims to the
original body. -/
theorem tryWs_fence (B rest : List Char) (htrip : hasTriple B = false)
    (hnsp : B.all isSpc = false) :
    ∃ b', tryWs ('\n' :: (B ++ '\n' :: tickChar :: tickChar :: tickChar :: rest))
        = some (b', rest) ∧ trimL b' = trimL B := by
  have hspcnl : isSpc '\n' = true := by decide
  have hwB : (('\n' :: (B ++ '\n' :: tickChar :: tickChar :: tickChar :: rest)).takeWhile
      isSpc).length = (B.takeWhile isSpc).length + 1 := by
    rw [List.takeWhile_cons, if_pos hspcnl, takeWhile_append_stop B _ hnsp]
    rfl
  have hattempt : ∀ j, j ≤ (B.takeWhile isSpc).length →
      fenceTry ('\n' :: (B ++ '\n' :: tickChar :: tickChar :: tickChar :: rest)) j
        = some (B.drop j, rest) := by
    intro j hj
    have hjB : j ≤ B.length := le_trans hj (takeWhile_length_le isSpc B)
    unfold fenceTry
    have hdrop : ('\n' :: (B ++ '\n' :: tickChar :: tickChar :: tickChar :: rest)).drop (j + 1)
        = B.drop j ++ '\n' :: tickChar :: tickChar :: tickChar :: rest := by
      rw [List.drop_succ_cons]
      exact drop_append_le B _ j hjB
    have htake : (B.drop j ++ '\n' :: tickChar :: tickChar :: tickChar :: rest).take
        (B.drop j).length = B.drop j := take_append_len _ _
    have hdrop4 : (B.drop j ++ '\n' :: tickChar :: tickChar :: tickChar :: rest).drop
        ((B.drop j).length + 4) = rest := drop_append_plus (B.drop j) _ 4
    simp only [hdrop, findPat_closing (B.drop j) rest (hasTriple_drop B j htrip),
      htake, hdrop4]
  have hmem0 : 0 ∈ wsCands ('\n' :: (B ++ '\n' :: tickChar :: tickChar :: tickChar :: rest)) :=
    (mem_wsCands _ 0).mpr ⟨by rw [hwB]; omega, rfl⟩
  have hne : wsCands ('\n' :: (B ++ '\n' :: tickChar :: tickChar :: tickChar :: rest)) ≠ [] :=
    List.ne_nil_of_mem hmem0
  have hall : ∀ j ∈ wsCands ('\n' :: (B ++ '\n' :: tickChar :: tickChar :: tickChar :: rest)),
      ∃ v, fenceTry ('\n' :: (B ++ '\n' :: tickChar :: tickChar :: tickChar :: rest)) j
          = some v ∧ (v.2 = rest ∧ trimL v.1 = trimL B) := by
    intro j hj
    obtain ⟨hjm, -⟩ := (mem_wsCands _ j).mp hj
    rw [hwB] at hjm
    have hj' : j ≤ (B.takeWhile isSpc).length := by omega
    exact ⟨(B.drop j, rest), hattempt j hj',
      rfl, trimL_drop B j (spc_of_mem_take B j hj')⟩
  obtain ⟨⟨b', r⟩, hv, hrest, htrim⟩ := firstSome_all _ _ _ hne hall
  subst hrest
  exact ⟨b', hv, htrim⟩

/-- The code-block regex matches a canonical fence exactly: tag as language
group, a body trimming to the rendered body, and the remainder beginning
right after the closing fence. -/
theorem matchAt_fence (f : FenceSpec) (rest : List Char) (hf : goodFence f) :
    ∃ b', matchAt (fenceText f ++ rest) = some (f.tag, b', rest)
      ∧ trimL b' = trimL f.body := by
  obtain ⟨htag, htrip, hnsp⟩ := hf
  obtain ⟨b', htry, htrim⟩ := tryWs_fence f.body rest htrip hnsp
  refine ⟨b', ?_, htrim⟩
  have hshape : fenceText f ++ rest
      = tickChar :: tickChar :: tickChar ::
          (f.tag ++ '\n' :: (f.body ++ '\n' :: tickChar :: tickChar :: tickChar :: rest)) := by
    simp [fenceText, tickRun3, List.append_assoc]
  rw [hshape]
  have htickT : isTick tickChar = true := by decide
  simp only [matchAt, htickT, Bool.and_self, if_true]
  rw [dropWhile_tag f.tag _ htag, htry, takeWhile_tag f.tag _ htag]

/-- C4 amended (round trip): for every text assembled from fenced regions in
canonical form — three backticks, an optional word-character tag, a
newline, a body, a newline, three backticks — separated by backtick-free
text, where each body contains no triple-backtick run and at least one
non-whitespace character, extraction returns exactly one block per region
in order: its language is the tag, or `"plaintext"` when the tag is
omitted, and its code is the trimmed body. -/
theorem c4_roundtrip (pre : List Char) (specs : List (FenceSpec × List Char))
    (hpre : goodSep pre) (hspecs : ∀ x ∈ specs, goodFence x.1 ∧ goodSep x.2) :
    extractCodeBlocksFromText (String.mk (renderFenced pre specs))
        = specs.map (fun x => blockOf x.1) ∧
    (extractCodeBlocksFromText (String.mk (renderFenced pre specs))).length
        = specs.length := by
  have main : ∀ (specs : List (FenceSpec × List Char)) (pre : List Char),
      (∀ c ∈ pre, isTick c = false) → (∀ x ∈ specs, goodFence x.1 ∧ goodSep x.2) →
      extractList (renderFenced pre specs) = specs.map (fun x => blockOf x.1) := by
    intro specs
    induction specs with
    | nil =>
      intro pre hpre _
      show extractList pre = []
      have h2 : extractList (pre ++ []) = extractList [] :=
        extractList_append_no_tick pre [] hpre
      rw [List.append_nil] at h2
      exact h2
    | cons x rest ih =>
      intro pre hpre hspecs
      obtain ⟨f, sep⟩ := x
      obtain ⟨hf, hsep⟩ := hspecs (f, sep) (List.mem_cons_self _ _)
      show extractList (pre ++ (fenceText f ++ renderFenced sep rest)) = _
      rw [extractList_append_no_tick pre _ hpre]
      obtain ⟨b', hma, htrim⟩ := matchAt_fence f (renderFenced sep rest) hf
      rw [extractList_cons_some _ _ _ _ hma,
          ih sep hsep (fun y hy => hspecs y (List.mem_cons_of_mem _ hy))]
      congr 1
      simp [mkBlock, blockOf, htrim]
  have h := main specs pre hpre hspecs
  constructor
  · exact h
  · show (extractList (renderFenced pre specs)).length = specs.length
    rw [h, List.length_map]

/-- C4 counterexample: the text rendered from two well-formed fenced
regions, the first with an empty body — `` ```\n\n``` `` then `s` then
`` ```\nx\n``` `` — contains exactly 2 fenced regions but extraction
returns 1 block: the greedy whitespace run of the regex swallows the
first region's closing newline and the lazy body runs on to the second
region's closing fence, merging both regions into one block. -/
theorem c4_counterexample :
    renderFenced [] [(⟨[], []⟩, "s".data), (⟨[], "x".data⟩, [])]
        = "```\n\n```s```\nx\n```".data ∧
    ([(⟨[], []⟩, "s".data), (⟨[], "x".data⟩, [])] : List (FenceSpec × List Char)).length = 2 ∧
    (extractCodeBlocksFromText "```\n\n```s```\nx\n```").length = 1 := by
  refine ⟨by decide, rfl, by decide⟩

/-- C4 witness: a two-region text in canonical form with good bodies
round-trips to its 2 blocks, with the omitted tag defaulting to
`"plaintext"` and trimmed bodies. -/
theorem c4_witness :
    extractCodeBlocksFromText (String.mk (renderFenced []
        [(⟨"js".data, "return 1".data⟩, "\nmiddle\n".data), (⟨[], " x = 2 ".data⟩, [])]))
      = [⟨"js", "return 1", "unknown"⟩, ⟨"plaintext", "x = 2", "unknown"⟩] :=
  (c4_roundtrip []
    [(⟨"js".data, "return 1".data⟩, "\nmiddle\n".data), (⟨[], " x = 2 ".data⟩, [])]
    (by decide) (by decide)).1.trans (by decide)

end Vectivii
